import Mathlib

/-!
Shallow embedding of the zelos memory-snapshot plugin
(src/zelos/ext/plugins/snapshot/snapshot.py) and proofs about its
region-classification, filtering, and serialization pipeline.

The embedding models:
- `Snapshotter._bad_section`  as `badSection`
- `Snapshotter.snapshot`      as `buildOutMap` / `snapshotOut`
- the collaborator interfaces (memory regions, region directory lookup,
  heap offsets, tracer) as fields of `SnapEnv`; `readMem` is fallible.

Machine integers are modelled as `Nat`/`Int` (Python integers are unbounded,
so no wraparound is involved).  Bytes are `Nat` values as produced by the
memory read.  Floating-point appears only in the zero-fraction comparison of
`_bad_section`; it is modelled by the exact rational comparison
`1000000 * zeros > 999999 * len`, which agrees with the double-precision
comparison of the source for every length reachable past the 4 GiB size
guard (denominators up to 2^32 are too coarse to fall inside the rounding
gap of the literal `0.999999`).
-/

/-- Index into a hex alphabet: the digits produced by Python `"%x"`. -/
def hexDigitChar (n : Nat) : Char :=
  "0123456789abcdef".data.getD n '0'

/-- Little-endian list of lowercase hex digits of `n` (empty for 0). -/
def toHexRev : Nat → List Char
  | 0 => []
  | n + 1 => hexDigitChar ((n + 1) % 16) :: toHexRev ((n + 1) / 16)
decreasing_by exact Nat.div_lt_self (Nat.succ_pos n) (by omega)

/-- Python `"{0:x}".format n`: minimal-width lowercase hex, no prefix. -/
def toHex (n : Nat) : String :=
  if n = 0 then "0" else String.mk (toHexRev n).reverse

/-- The base64 alphabet used by `base64.b64encode`. -/
def b64Alphabet : List Char :=
  "ABCDEFGHIJKLMNOPQRSTUVWXYZabcdefghijklmnopqrstuvwxyz0123456789+/".data

/-- Character for a 6-bit group. -/
def b64Char (n : Nat) : Char := b64Alphabet.getD n '='

/-- Standard base64 of a byte list, with `=` padding
(`base64.b64encode(data).decode()`). -/
def b64e : List Nat → List Char
  | [] => []
  | [a] => [b64Char (a / 4), b64Char (a % 4 * 16), '=', '=']
  | [a, b] => [b64Char (a / 4), b64Char (a % 4 * 16 + b / 16), b64Char (b % 16 * 4), '=']
  | a :: b :: c :: rest =>
      b64Char (a / 4) :: b64Char (a % 4 * 16 + b / 16) ::
      b64Char (b % 16 * 4 + c / 64) :: b64Char (c % 64) :: b64e rest

/-- Base64 text of a byte list, as `base64.b64encode(data).decode()`. -/
def b64encode (data : List Nat) : String := String.mk (b64e data)

/-- Does `hay` start with `needle`? -/
def listStartsWith : List Char → List Char → Bool
  | [], _ => true
  | n :: ns, h :: hs => n == h && listStartsWith ns hs
  | _, _ => false

/-- Substring containment on char lists (Python `needle in hay`). -/
def containsSub : List Char → List Char → Bool
  | hay, needle =>
    if listStartsWith needle hay then true
    else
      match hay with
      | [] => false
      | _ :: t => containsSub t needle

/-- Python `needle in hay` on strings. -/
def strContainsSub (hay needle : String) : Bool := containsSub hay.data needle.data

/-- The zero-byte count computed by the `percent_zeros` loop. -/
def countZeros : List Nat → Nat
  | [] => 0
  | c :: rest => (if c = 0 then 1 else 0) + countZeros rest

/-- Model of `Snapshotter._bad_section`: reject data longer than 0x100000000 bytes, or
whose zero fraction exceeds 0.999999 (exact rational comparison, see header). -/
def badSection (data : List Nat) : Bool :=
  if data.length > 0x100000000 then true
  else if 1000000 * countZeros data > 999999 * data.length then true
  else false

/-- Python `l[:k]` with a possibly negative `Int` bound. -/
def pySliceTo (k : Int) (l : List α) : List α :=
  if 0 ≤ k then l.take k.toNat else l.take ((l.length : Int) + k).toNat

/-- A memory region as seen by the loop: address/size/protection from
`emu.mem_regions()`, kind/name from the `memory.get_region` directory
lookup (already resolved here; both default to `"<unk>"` when the
directory has no entry). -/
structure RegionInfo where
  address : Nat
  size : Nat
  prot : Nat
  kind : String
  name : String
deriving Repr, DecidableEq

/-- One entry of `out_map["sections"]`; `data` holds the base64 text. -/
structure SnapSection where
  name : String
  address : Nat
  permissions : Nat
  data : String
deriving Repr, DecidableEq

/-- One entry of `out_map["functions"]`. -/
structure FunctionRecord where
  address : Nat
  name : String
  isImport : Bool
deriving Repr, DecidableEq

/-- One entry of `out_map["comments"]`, copied verbatim from the tracer. -/
structure CommentRecord where
  address : Nat
  threadId : Nat
  text : String
deriving Repr, DecidableEq

/-- The collaborators of `Snapshotter.snapshot`: entry point, region list,
fallible memory read, heap offsets, tracer comments and called functions
(in the tracer's native iteration order). -/
structure SnapEnv (E : Type) where
  entryPoint : Nat
  regions : List RegionInfo
  readMem : Nat → Nat → Except E (List Nat)
  heapCurrentOffset : Nat
  heapBase : Nat
  comments : List CommentRecord
  functionsCalled : List Nat

/-- The assembled `out_map` before serialization. -/
structure OutMap where
  entrypoint : Nat
  baseAddress : Option Nat
  sections : List SnapSection
  functions : List FunctionRecord
  comments : List CommentRecord
deriving Repr, DecidableEq

/-- First classification rule: `kind == "main" or name == "main"`. -/
def rule1Applies (kind name : String) : Bool :=
  kind == "main" || name == "main"

/-- Second classification rule: `kind == "stack" and "dll_main" not in name`. -/
def rule2Applies (kind name : String) : Bool :=
  kind == "stack" && !(strContainsSub name "dll_main")

/-- Third classification rule:
`(kind == "heap" and name != "heap") or kind == "valloc" or kind == "section"`. -/
def rule3Applies (kind name : String) : Bool :=
  (kind == "heap" && name != "heap") || kind == "valloc" || kind == "section"

/-- Any classification rule fires (the region will be read). -/
def matchesRule (r : RegionInfo) : Bool :=
  rule1Applies r.kind r.name || rule2Applies r.kind r.name || rule3Applies r.kind r.name

/-- Split on each single space character, as Python `s.split(" ")`. -/
def splitOnSpaceAux : List Char → List Char → List (List Char)
  | acc, [] => [acc.reverse]
  | acc, c :: rest =>
    if c = ' ' then acc.reverse :: splitOnSpaceAux [] rest
    else splitOnSpaceAux (c :: acc) rest

/-- Python `s.split(" ")`. -/
def splitOnSpace (s : List Char) : List (List Char) := splitOnSpaceAux [] s

/-- Name synthesis of the main rule: the second space-delimited token when
the name contains a space (`name.split(" ")`, `tmpname[1]`). -/
def mainSectionName (name : String) : String :=
  match splitOnSpace name.data with
  | _ :: second :: _ => String.mk second
  | _ => name

/-- The section dictionary and the raw bytes read, for a region whose read
returned `d` — the three `if` blocks of the loop in order, a later match
overwriting the `section`/`data` of an earlier one, exactly as in the
source.  The main-rule permissions are forced to `0x1` when the
synthesized name is `".pe"`; the heap rule truncates the stored data of
`main_heap` to `data[: current_offset - HEAP_BASE]`. -/
def classifyPure (env : SnapEnv E) (r : RegionInfo) (d : List Nat) :
    Option (SnapSection × List Nat) :=
  let s1 : Option (SnapSection × List Nat) :=
    if rule1Applies r.kind r.name then
      some (⟨mainSectionName r.name, r.address,
             (if mainSectionName r.name == ".pe" then 0x1 else r.prot),
             b64encode d⟩, d)
    else none
  let s2 : Option (SnapSection × List Nat) :=
    if rule2Applies r.kind r.name then
      some (⟨"stack_" ++ r.name, r.address, r.prot, b64encode d⟩, d)
    else s1
  let s3 : Option (SnapSection × List Nat) :=
    if rule3Applies r.kind r.name then
      some (⟨r.kind ++ "_" ++ r.name, r.address, r.prot,
             (if r.kind == "heap" && r.name == "main_heap" then
                b64encode (pySliceTo ((env.heapCurrentOffset : Int) - (env.heapBase : Int)) d)
              else b64encode d)⟩, d)
    else s2
  s3

/-- Classification of one region.  Every firing rule performs the same call
`self.memory.read(addr, size)`; since that read is a function of
`(addr, size)`, the rules either all see the same bytes or the first firing
rule propagates the read failure, so the read is factored out here. -/
def classifyRegion (env : SnapEnv E) (r : RegionInfo) :
    Except E (Option (SnapSection × List Nat)) :=
  if matchesRule r then
    match env.readMem r.address r.size with
    | .error e => .error e
    | .ok d => .ok (classifyPure env r d)
  else .ok none

/-- The `_bad_section` filter applied to a tentatively dumped region:
the filter sees the full bytes read (`data`), not the possibly truncated
section payload. -/
def filterStep : Option (SnapSection × List Nat) → Option SnapSection
  | none => none
  | some (s, d) => if badSection d then none else some s

/-- One iteration of the region loop: skip the GDT region at `0x80000000`,
classify, set `base_address` on the first region a rule fired for, and
append the section unless `_bad_section` rejects it. -/
def snapStep (env : SnapEnv E) (st : Option Nat × List SnapSection) (r : RegionInfo) :
    Except E (Option Nat × List SnapSection) :=
  if r.address == 0x80000000 then .ok st
  else do
    let c ← classifyRegion env r
    let base := if st.1.isNone && c.isSome then some r.address else st.1
    match filterStep c with
    | some s => .ok (base, st.2 ++ [s])
    | none => .ok (base, st.2)

/-- Region ordering used by `sorted(regions)`: ascending address. -/
def addrLe (a b : RegionInfo) : Prop := a.address ≤ b.address

instance : DecidableRel addrLe := fun a b => Nat.decLe a.address b.address

instance : IsTotal RegionInfo addrLe := ⟨fun a b => Nat.le_total a.address b.address⟩

instance : IsTrans RegionInfo addrLe := ⟨fun _ _ _ h1 h2 => Nat.le_trans h1 h2⟩

instance : IsRefl RegionInfo addrLe := ⟨fun a => Nat.le_refl a.address⟩

/-- Python `sorted(regions)`: a stable ascending sort by address. -/
def sortRegions (rs : List RegionInfo) : List RegionInfo :=
  rs.insertionSort addrLe

/-- The `functions` loop: keep called addresses below `0x10000000`, name them
`"traced_" + hex(addr)`, mark them as non-imports. -/
def functionRecords (called : List Nat) : List FunctionRecord :=
  called.foldl
    (fun acc addr =>
      if addr < 0x10000000 then
        acc ++ [⟨addr, "traced_" ++ toHex addr, false⟩]
      else acc)
    []

/-- The assembled `out_map` of `Snapshotter.snapshot`: the region loop over
the sorted regions, then comments (verbatim) and function records. -/
def buildOutMap (env : SnapEnv E) : Except E OutMap := do
  let st ← (sortRegions env.regions).foldlM (snapStep env) (none, [])
  .ok { entrypoint := env.entryPoint
        baseAddress := st.1
        sections := st.2
        functions := functionRecords env.functionsCalled
        comments := env.comments }

/-- A classification result exists exactly when some rule fired. -/
theorem classifyPure_isSome (env : SnapEnv E) (r : RegionInfo) (d : List Nat) :
    (classifyPure env r d).isSome = matchesRule r := by
  unfold classifyPure matchesRule
  cases h1 : rule1Applies r.kind r.name <;>
    cases h2 : rule2Applies r.kind r.name <;>
      cases h3 : rule3Applies r.kind r.name <;>
        simp [h1, h2, h3]

/-- When no rule fires, classification yields nothing. -/
theorem classifyPure_eq_none (env : SnapEnv E) (r : RegionInfo) (d : List Nat)
    (h : matchesRule r = false) : classifyPure env r d = none := by
  have := classifyPure_isSome env r d
  rw [h] at this
  exact Option.not_isSome_iff_eq_none.mp (by simp [this])

/-- Every synthesized section records the region's own address, and the raw
data attached for the filter is the full read. -/
theorem classifyPure_addr (env : SnapEnv E) (r : RegionInfo) (d : List Nat)
    (s : SnapSection) (d2 : List Nat) (h : classifyPure env r d = some (s, d2)) :
    s.address = r.address ∧ d2 = d := by
  unfold classifyPure at h
  cases h1 : rule1Applies r.kind r.name <;>
    cases h2 : rule2Applies r.kind r.name <;>
      cases h3 : rule3Applies r.kind r.name <;>
        simp [h1, h2, h3] at h <;>
          (obtain ⟨hs, hd⟩ := h
           exact ⟨by rw [← hs], hd.symm⟩)

/-- A matching region with a successful read classifies purely. -/
theorem classifyRegion_ok (env : SnapEnv E) (r : RegionInfo) (d : List Nat)
    (hm : matchesRule r = true) (hread : env.readMem r.address r.size = .ok d) :
    classifyRegion env r = .ok (classifyPure env r d) := by
  unfold classifyRegion
  rw [hm, hread]
  simp

/-- A matching region whose read fails propagates the failure. -/
theorem classifyRegion_error (env : SnapEnv E) (r : RegionInfo) (e : E)
    (hm : matchesRule r = true) (hread : env.readMem r.address r.size = .error e) :
    classifyRegion env r = .error e := by
  unfold classifyRegion
  rw [hm, hread]
  simp

/-- A region no rule fires for is classified without reading memory. -/
theorem classifyRegion_no_match (env : SnapEnv E) (r : RegionInfo)
    (hm : matchesRule r = false) : classifyRegion env r = .ok none := by
  unfold classifyRegion
  rw [hm]
  simp

/-- On `Except`, `pure` is `.ok`. -/
theorem exceptPure (a : α) : (pure a : Except E α) = .ok a := rfl

/-- Bind on a successful `Except`. -/
theorem exceptBindOk (a : α) (g : α → Except E β) : (Except.ok a >>= g) = g a := rfl

/-- Bind on a failed `Except`. -/
theorem exceptBindErr (e : E) (g : α → Except E β) :
    ((Except.error e : Except E α) >>= g) = Except.error e := rfl

/-- Is a region both not the hard-excluded GDT region and matched by a rule?
Such regions are exactly the ones that set `base_address`. -/
def baseCandidate (r : RegionInfo) : Bool :=
  (r.address != 0x80000000) && matchesRule r

/-- Outcome of the loop body for one region: `none` when the region is the
GDT region, no rule fired, or `_bad_section` rejected the read. -/
def regionOutcome (env : SnapEnv E) (f : RegionInfo → List Nat) (r : RegionInfo) :
    Option SnapSection :=
  if r.address == 0x80000000 then none
  else filterStep (classifyPure env r (f r))

/-- Characterization of the region loop: when every region that a rule fires
for reads successfully (with bytes `f r`), the loop succeeds, the base
address is the first matched region's address, and the sections are the
per-region outcomes in order. -/
theorem snapFold_char (env : SnapEnv E) (f : RegionInfo → List Nat) :
    ∀ (rs : List RegionInfo),
      (∀ r ∈ rs, r.address ≠ 0x80000000 → matchesRule r = true →
          env.readMem r.address r.size = .ok (f r)) →
      ∀ (b0 : Option Nat) (acc : List SnapSection),
        rs.foldlM (snapStep env) (b0, acc) = .ok
          (b0 <|> ((rs.filter baseCandidate).head?.map (fun r => r.address)),
           acc ++ rs.filterMap (regionOutcome env f)) := by
  intro rs
  induction rs with
  | nil => intro _ b0 acc; simp [List.foldlM, exceptPure]
  | cons r rs ih =>
    intro hf b0 acc
    have hf0 := hf r (by simp)
    have hftail : ∀ x ∈ rs, x.address ≠ 0x80000000 → matchesRule x = true →
        env.readMem x.address x.size = .ok (f x) :=
      fun x hx => hf x (by simp [hx])
    rw [List.foldlM_cons]
    by_cases hgdt : r.address = 0x80000000
    · have hstep : snapStep env (b0, acc) r = .ok (b0, acc) := by
        unfold snapStep; rw [if_pos (by simp [hgdt])]
      rw [hstep, exceptBindOk, ih hftail b0 acc]
      have hbc : baseCandidate r = false := by simp [baseCandidate, hgdt]
      have hro : regionOutcome env f r = none := by simp [regionOutcome, hgdt]
      rw [List.filter_cons_of_neg (by simp [hbc]), List.filterMap_cons_none hro]
    · by_cases hm : matchesRule r = true
      · have hcl : classifyRegion env r = .ok (classifyPure env r (f r)) :=
          classifyRegion_ok env r (f r) hm (hf0 hgdt hm)
        have hsome : (classifyPure env r (f r)).isSome = true := by
          rw [classifyPure_isSome, hm]
        have hbc : baseCandidate r = true := by
          simp [baseCandidate, hgdt, hm]
        have hstep : snapStep env (b0, acc) r = .ok
            (b0 <|> some r.address,
             acc ++ (regionOutcome env f r).toList) := by
          unfold snapStep
          rw [if_neg (by simp [hgdt]), hcl, exceptBindOk]
          have hro : regionOutcome env f r = filterStep (classifyPure env r (f r)) := by
            simp [regionOutcome, hgdt]
          cases hfs : filterStep (classifyPure env r (f r)) with
          | none => simp [hfs, hro, hsome]; cases b0 <;> simp
          | some s => simp [hfs, hro, hsome]; cases b0 <;> simp
        rw [hstep, exceptBindOk, ih hftail]
        rw [List.filter_cons_of_pos (by simp [hbc])]
        have hhead : ((r :: List.filter baseCandidate rs).head?).map (fun x => x.address)
            = some r.address := by simp
        rw [hhead]
        have horelse : ∀ x : Option Nat, ((b0 <|> some r.address) <|> x) = (b0 <|> some r.address) := by
          intro x; cases b0 <;> rfl
        have hsec : (acc ++ (regionOutcome env f r).toList)
            ++ List.filterMap (regionOutcome env f) rs
            = acc ++ List.filterMap (regionOutcome env f) (r :: rs) := by
          rw [List.filterMap_cons]
          cases hro : regionOutcome env f r with
          | none => simp
          | some s => simp
        rw [horelse, hsec]
      · have hm2 : matchesRule r = false := by
          cases h : matchesRule r; rfl; exact absurd h hm
        have hcl := classifyRegion_no_match env r hm2
        have hstep : snapStep env (b0, acc) r = .ok (b0, acc) := by
          unfold snapStep
          rw [if_neg (by simp [hgdt]), hcl, exceptBindOk]
          simp [filterStep]
        rw [hstep, exceptBindOk, ih hftail b0 acc]
        have hbc : baseCandidate r = false := by simp [baseCandidate, hm2]
        have hro : regionOutcome env f r = none := by
          simp [regionOutcome, hgdt, filterStep, classifyPure_eq_none env r (f r) hm2]
        rw [List.filter_cons_of_neg (by simp [hbc]), List.filterMap_cons_none hro]

/-- Characterization of `buildOutMap` under successful reads: sections are
the per-region outcomes over the address-sorted regions, the base address
is the first matched region's address, functions and comments are as
assembled after the loop. -/
theorem buildOutMap_char (env : SnapEnv E) (f : RegionInfo → List Nat)
    (hf : ∀ r ∈ sortRegions env.regions, r.address ≠ 0x80000000 → matchesRule r = true →
        env.readMem r.address r.size = .ok (f r)) :
    buildOutMap env = .ok
      { entrypoint := env.entryPoint
        baseAddress := (((sortRegions env.regions).filter baseCandidate).head?).map
          (fun r => r.address)
        sections := (sortRegions env.regions).filterMap (regionOutcome env f)
        functions := functionRecords env.functionsCalled
        comments := env.comments } := by
  unfold buildOutMap
  rw [snapFold_char env f (sortRegions env.regions) hf none [], exceptBindOk]
  simp

/-- The functions loop is a filter-and-map over the tracer's iteration
order. -/
theorem functionRecords_eq (called : List Nat) :
    functionRecords called =
      (called.filter (fun a => decide (a < 0x10000000))).map
        (fun a => ⟨a, "traced_" ++ toHex a, false⟩) := by
  have haux : ∀ (l : List Nat) (acc : List FunctionRecord),
      l.foldl (fun acc addr =>
        if addr < 0x10000000 then acc ++ [⟨addr, "traced_" ++ toHex addr, false⟩] else acc) acc
      = acc ++ (l.filter (fun a => decide (a < 0x10000000))).map
          (fun a => (⟨a, "traced_" ++ toHex a, false⟩ : FunctionRecord)) := by
    intro l
    induction l with
    | nil => intro acc; simp
    | cons a l ih =>
      intro acc
      by_cases h : a < 0x10000000
      · rw [List.foldl_cons, if_pos h, ih, List.filter_cons_of_pos (by simpa using h)]
        simp
      · rw [List.foldl_cons, if_neg h, ih, List.filter_cons_of_neg (by simpa using h)]
  exact haux called []

/-- Hex digit value, including the uppercase digits accepted by the JSON
string parser. -/
def charHexVal (c : Char) : Option Nat :=
  if 48 ≤ c.toNat ∧ c.toNat ≤ 57 then some (c.toNat - 48)
  else if 97 ≤ c.toNat ∧ c.toNat ≤ 102 then some (c.toNat - 87)
  else if 65 ≤ c.toNat ∧ c.toNat ≤ 70 then some (c.toNat - 55)
  else none

/-- Accumulating big-endian hex value of a digit list. -/
def hexValueAux : Nat → List Char → Option Nat
  | acc, [] => some acc
  | acc, c :: rest =>
    match charHexVal c with
    | none => none
    | some d => hexValueAux (acc * 16 + d) rest

/-- Value of a nonempty hex digit string. -/
def hexValue : List Char → Option Nat
  | [] => none
  | l => hexValueAux 0 l

/-- Hex digits evaluate back to themselves. -/
theorem charHexVal_hexDigitChar (d : Nat) (h : d < 16) :
    charHexVal (hexDigitChar d) = some d := by
  interval_cases d <;> decide

/-- Appended digit lists are processed sequentially by `hexValueAux`. -/
theorem hexValueAux_append (l1 l2 : List Char) :
    ∀ acc, hexValueAux acc (l1 ++ l2)
      = (hexValueAux acc l1).bind (fun a => hexValueAux a l2) := by
  induction l1 with
  | nil => intro acc; simp [hexValueAux]
  | cons c l ih =>
    intro acc
    rw [List.cons_append]
    cases hc : charHexVal c with
    | none => simp [hexValueAux, hc]
    | some d => simp [hexValueAux, hc, ih]

/-- Unfolding lemma for `toHexRev` on a nonzero argument. -/
theorem toHexRev_pos (n : Nat) (h : n ≠ 0) :
    toHexRev n = hexDigitChar (n % 16) :: toHexRev (n / 16) := by
  cases n with
  | zero => exact absurd rfl h
  | succ m => rw [toHexRev]

/-- Evaluating the reversed digit list of `n` appends `n` to the
accumulator. -/
theorem hexValueAux_toHexRev (n : Nat) :
    ∀ acc, hexValueAux acc (toHexRev n).reverse
      = some (acc * 16 ^ (toHexRev n).length + n) := by
  induction n using Nat.strong_induction_on with
  | _ n ih =>
    intro acc
    by_cases h : n = 0
    · subst h; simp [toHexRev, hexValueAux]
    · rw [toHexRev_pos n h, List.reverse_cons, hexValueAux_append,
        ih (n / 16) (Nat.div_lt_self (Nat.pos_of_ne_zero h) (by omega)) acc]
      have hd : charHexVal (hexDigitChar (n % 16)) = some (n % 16) :=
        charHexVal_hexDigitChar (n % 16) (Nat.mod_lt n (by omega))
      simp only [Option.some_bind, hexValueAux, hd]
      rw [List.length_cons]
      have hpow : (16 : Nat) ^ ((toHexRev (n / 16)).length + 1)
          = 16 ^ (toHexRev (n / 16)).length * 16 := by ring
      rw [hpow, ← Nat.mul_assoc]
      have hdm := Nat.div_add_mod n 16
      congr 1
      generalize acc * 16 ^ (toHexRev (n / 16)).length = m
      omega

/-- Faithfulness of `toHex`: the rendering parses back to the number. -/
theorem hexValue_toHex (n : Nat) : hexValue (toHex n).data = some n := by
  by_cases h : n = 0
  · subst h; decide
  · unfold toHex
    rw [if_neg h]
    have hne : toHexRev n ≠ [] := by
      rw [toHexRev_pos n h]; simp
    have hdata : (String.mk (toHexRev n).reverse).data = (toHexRev n).reverse := rfl
    rw [hdata]
    have hrevne : (toHexRev n).reverse ≠ [] := by simpa using hne
    unfold hexValue
    split
    · next heq => exact absurd heq hrevne
    · next => rw [hexValueAux_toHexRev n 0]; simp

/-- Every digit of `toHex` comes from the lowercase hex alphabet. -/
theorem toHex_digits (n : Nat) :
    ∀ c ∈ (toHex n).data, c ∈ "0123456789abcdef".data := by
  by_cases h : n = 0
  · subst h; decide
  · unfold toHex
    rw [if_neg h]
    intro c hc
    have hmem : c ∈ toHexRev n := by
      have : (String.mk (toHexRev n).reverse).data = (toHexRev n).reverse := rfl
      rw [this, List.mem_reverse] at hc
      exact hc
    clear hc
    induction n using Nat.strong_induction_on with
    | _ n ih =>
      by_cases h0 : n = 0
      · subst h0; simp [toHexRev] at hmem
      · rw [toHexRev_pos n h0] at hmem
        rcases List.mem_cons.mp hmem with hq | hq
        · subst hq
          have : n % 16 < 16 := Nat.mod_lt n (by omega)
          revert this
          generalize n % 16 = d
          intro hd
          interval_cases d <;> decide
        · by_cases hq2 : n / 16 = 0
          · rw [hq2] at hq; simp [toHexRev] at hq
          · exact ih (n / 16) (Nat.div_lt_self (Nat.pos_of_ne_zero h0) (by omega)) hq2 hq

/-- The leading digit of `toHex n` is nonzero for nonzero `n`: no fixed-width
padding is applied. -/
theorem toHex_no_leading_zero (n : Nat) (h : n ≠ 0) :
    (toHex n).data.head? ≠ some '0' := by
  unfold toHex
  rw [if_neg h]
  have hdata : (String.mk (toHexRev n).reverse).data = (toHexRev n).reverse := rfl
  rw [hdata, List.head?_reverse]
  have hmain : ∀ m : Nat, m ≠ 0 → ∃ d, d < 16 ∧ d ≠ 0 ∧
      (toHexRev m).getLast? = some (hexDigitChar d) := by
    intro m
    induction m using Nat.strong_induction_on with
    | _ m ih =>
      intro hm
      rw [toHexRev_pos m hm]
      by_cases hq : m / 16 = 0
      · have hm16 : m < 16 := by omega
        refine ⟨m % 16, Nat.mod_lt m (by omega), by omega, ?_⟩
        rw [hq]
        simp [toHexRev]
      · obtain ⟨d, hd1, hd2, hd3⟩ :=
          ih (m / 16) (Nat.div_lt_self (Nat.pos_of_ne_zero hm) (by omega)) hq
        refine ⟨d, hd1, hd2, ?_⟩
        obtain ⟨c2, t2, hct⟩ : ∃ c2 t2, toHexRev (m / 16) = c2 :: t2 :=
          ⟨_, _, toHexRev_pos _ hq⟩
        rw [hct, List.getLast?_cons_cons, ← hct, hd3]
  obtain ⟨d, hd1, hd2, hd3⟩ := hmain n h
  rw [hd3]
  intro hcon
  have hchar : hexDigitChar d = '0' := by injection hcon
  revert hchar hd2
  revert hd1
  generalize d = e
  intro he
  interval_cases e <;> decide

/-- JSON values as produced and consumed by `json.dumps`/`json.loads` on
this plugin's documents: integers, strings, booleans, arrays, and objects
with insertion-ordered keys. -/
inductive JValue where
  | jint : Int → JValue
  | jstr : String → JValue
  | jbool : Bool → JValue
  | jarr : List JValue → JValue
  | jobj : List (String × JValue) → JValue

/-- Little-endian decimal digits of `n` (empty for 0). -/
def natDecRev : Nat → List Char
  | 0 => []
  | n + 1 => hexDigitChar ((n + 1) % 10) :: natDecRev ((n + 1) / 10)
decreasing_by exact Nat.div_lt_self (Nat.succ_pos n) (by omega)

/-- Decimal rendering of a natural number. -/
def natDec (n : Nat) : List Char :=
  if n = 0 then ['0'] else (natDecRev n).reverse

/-- Python's decimal rendering of an integer. -/
def intDec (i : Int) : List Char :=
  if i < 0 then '-' :: natDec i.natAbs else natDec i.toNat

/-- Four lowercase hex digits, as `\\u%04x`. -/
def hex4 (n : Nat) : List Char :=
  [hexDigitChar (n / 4096 % 16), hexDigitChar (n / 256 % 16),
   hexDigitChar (n / 16 % 16), hexDigitChar (n % 16)]

/-- A `\\uXXXX` escape. -/
def uEsc (n : Nat) : List Char := '\\' :: 'u' :: hex4 n

/-- Escape one character as `json.dumps` with `ensure_ascii=True` does:
short escapes for the special characters, printable ASCII verbatim, and
`\\uXXXX` (with surrogate pairs above the BMP) for everything else. -/
def escChar (c : Char) : List Char :=
  if c = '"' then ['\\', '"']
  else if c = '\\' then ['\\', '\\']
  else if c = '\x08' then ['\\', 'b']
  else if c = '\x0c' then ['\\', 'f']
  else if c = '\n' then ['\\', 'n']
  else if c = '\r' then ['\\', 'r']
  else if c = '\t' then ['\\', 't']
  else if 0x20 ≤ c.toNat ∧ c.toNat ≤ 0x7e then [c]
  else if c.toNat < 0x10000 then uEsc c.toNat
  else uEsc (0xd800 + (c.toNat - 0x10000) / 0x400) ++ uEsc (0xdc00 + (c.toNat - 0x10000) % 0x400)

/-- Escape a character sequence. -/
def escBody : List Char → List Char
  | [] => []
  | c :: cs => escChar c ++ escBody cs

/-- A JSON string literal with surrounding quotes. -/
def escStr (s : List Char) : List Char := '"' :: escBody s ++ ['"']

mutual

/-- Compact `json.dumps` with the default separators `", "` and `": "`. -/
def encV : JValue → List Char
  | .jint i => intDec i
  | .jstr s => escStr s.data
  | .jbool true => ['t', 'r', 'u', 'e']
  | .jbool false => ['f', 'a', 'l', 's', 'e']
  | .jarr [] => ['[', ']']
  | .jarr (x :: xs) => '[' :: (encV x ++ encArrTail xs) ++ [']']
  | .jobj [] => ['\x7b', '\x7d']
  | .jobj (kv :: kvs) =>
      '\x7b' :: (escStr kv.1.data ++ ':' :: ' ' :: encV kv.2 ++ encObjTail kvs) ++ ['\x7d']

/-- Remaining array items, each preceded by `", "`. -/
def encArrTail : List JValue → List Char
  | [] => []
  | x :: xs => ',' :: ' ' :: (encV x ++ encArrTail xs)

/-- Remaining object members, each preceded by `", "`. -/
def encObjTail : List (String × JValue) → List Char
  | [] => []
  | kv :: kvs => ',' :: ' ' :: (escStr kv.1.data ++ ':' :: ' ' :: encV kv.2 ++ encObjTail kvs)

end

/-- Compact serialized form, `json.dumps(v)`. -/
def dumpsCompact (v : JValue) : String := String.mk (encV v)

mutual

/-- Fuel bound for the parser: enough fuel to recurse through `v`. -/
def jsize : JValue → Nat
  | .jint _ => 1
  | .jstr _ => 1
  | .jbool _ => 1
  | .jarr xs => 1 + jsizeElems xs
  | .jobj kvs => 1 + jsizeMembers kvs

/-- Fuel bound for an array's element list. -/
def jsizeElems : List JValue → Nat
  | [] => 0
  | x :: xs => 1 + jsize x + jsizeElems xs

/-- Fuel bound for an object's member list. -/
def jsizeMembers : List (String × JValue) → Nat
  | [] => 0
  | kv :: kvs => 1 + jsize kv.2 + jsizeMembers kvs

end

/-- JSON whitespace accepted between tokens by `json.loads`. -/
def isWsChar : Char → Bool
  | ' ' | '\t' | '\n' | '\r' => true
  | _ => false

/-- Skip leading JSON whitespace. -/
def skipWs (l : List Char) : List Char := l.dropWhile isWsChar

/-- Decode a two-character escape. -/
def escCharOf (c : Char) : Option Char :=
  if c = '"' then some '"'
  else if c = '\\' then some '\\'
  else if c = '/' then some '/'
  else if c = 'b' then some '\x08'
  else if c = 'f' then some '\x0c'
  else if c = 'n' then some '\n'
  else if c = 'r' then some '\r'
  else if c = 't' then some '\t'
  else none

/-- Value of four hex digits. -/
def hexQuad (h1 h2 h3 h4 : Char) : Option Nat :=
  match charHexVal h1, charHexVal h2, charHexVal h3, charHexVal h4 with
  | some d1, some d2, some d3, some d4 => some (d1 * 4096 + d2 * 256 + d3 * 16 + d4)
  | _, _, _, _ => none

/-- Parse a JSON string body after the opening quote, as `json.loads` does:
raw control characters are rejected, two-character escapes and `\\uXXXX`
(recombining surrogate pairs) are decoded, and the closing quote ends the
string, returning the remaining input. -/
def parseStrBody : List Char → Option (List Char × List Char)
  | [] => none
  | '"' :: rest => some ([], rest)
  | '\\' :: 'u' :: h1 :: h2 :: h3 :: h4 :: rest =>
    (match hexQuad h1 h2 h3 h4 with
     | none => none
     | some n =>
       if 0xd800 ≤ n ∧ n ≤ 0xdbff then
         match rest with
         | '\\' :: 'u' :: g1 :: g2 :: g3 :: g4 :: rest2 =>
           (match hexQuad g1 g2 g3 g4 with
            | none => none
            | some m =>
              if 0xdc00 ≤ m ∧ m ≤ 0xdfff then
                match parseStrBody rest2 with
                | none => none
                | some (cs, r) =>
                    some (Char.ofNat (0x10000 + (n - 0xd800) * 0x400 + (m - 0xdc00)) :: cs, r)
              else none)
         | _ => none
       else if 0xdc00 ≤ n ∧ n ≤ 0xdfff then none
       else
         match parseStrBody rest with
         | none => none
         | some (cs, r) => some (Char.ofNat n :: cs, r))
  | '\\' :: e :: rest =>
    (match escCharOf e with
     | none => none
     | some c =>
       match parseStrBody rest with
       | none => none
       | some (cs, r) => some (c :: cs, r))
  | c :: rest =>
    if c.toNat < 0x20 then none
    else
      match parseStrBody rest with
      | none => none
      | some (cs, r) => some (c :: cs, r)

/-- Consume a maximal run of decimal digits, accumulating their value. -/
def parseDigits : Nat → List Char → Nat × List Char
  | acc, [] => (acc, [])
  | acc, c :: rest =>
    if c.isDigit then parseDigits (acc * 10 + (c.toNat - 48)) rest
    else (acc, c :: rest)

mutual

/-- Parse one JSON value (with leading whitespace), fuel-bounded. -/
def parseVal : Nat → List Char → Option (JValue × List Char)
  | 0, _ => none
  | fuel + 1, s =>
    match skipWs s with
    | [] => none
    | '"' :: rest =>
      (match parseStrBody rest with
       | none => none
       | some (cs, r) => some (.jstr (String.mk cs), r))
    | 't' :: 'r' :: 'u' :: 'e' :: rest => some (.jbool true, rest)
    | 'f' :: 'a' :: 'l' :: 's' :: 'e' :: rest => some (.jbool false, rest)
    | '-' :: c :: rest =>
      if c.isDigit then
        let p := parseDigits (c.toNat - 48) rest
        some (.jint (-(p.1 : Int)), p.2)
      else none
    | '[' :: rest =>
      (match skipWs rest with
       | ']' :: rest2 => some (.jarr [], rest2)
       | s2 =>
         match parseElems fuel s2 with
         | none => none
         | some (vs, r) => some (.jarr vs, r))
    | '\x7b' :: rest =>
      (match skipWs rest with
       | '\x7d' :: rest2 => some (.jobj [], rest2)
       | s2 =>
         match parseMembers fuel s2 with
         | none => none
         | some (kvs, r) => some (.jobj kvs, r))
    | c :: rest =>
      if c.isDigit then
        let p := parseDigits (c.toNat - 48) rest
        some (.jint (p.1 : Int), p.2)
      else none

/-- Parse the comma-separated elements of a nonempty array up to `]`. -/
def parseElems : Nat → List Char → Option (List JValue × List Char)
  | 0, _ => none
  | fuel + 1, s =>
    match parseVal fuel s with
    | none => none
    | some (v, r) =>
      match skipWs r with
      | ',' :: r2 =>
        (match parseElems fuel r2 with
         | none => none
         | some (vs, r3) => some (v :: vs, r3))
      | ']' :: r2 => some ([v], r2)
      | _ => none

/-- Parse the members of a nonempty object up to the closing brace. -/
def parseMembers : Nat → List Char → Option (List (String × JValue) × List Char)
  | 0, _ => none
  | fuel + 1, s =>
    match skipWs s with
    | '"' :: rest =>
      (match parseStrBody rest with
       | none => none
       | some (k, r) =>
         match skipWs r with
         | ':' :: r2 =>
           (match parseVal fuel r2 with
            | none => none
            | some (v, r3) =>
              match skipWs r3 with
              | ',' :: r4 =>
                (match parseMembers fuel r4 with
                 | none => none
                 | some (kvs, r5) => some ((String.mk k, v) :: kvs, r5))
              | '\x7d' :: r4 => some ([(String.mk k, v)], r4)
              | _ => none)
         | _ => none)
    | _ => none

end

/-- Model of `json.loads`: parse a complete document, allowing trailing whitespace
only. -/
def decode (s : String) : Option JValue :=
  match parseVal (s.data.length + 1) s.data with
  | some (v, rest) => if skipWs rest = [] then some v else none
  | none => none

/-- Lexicographic comparison of key strings by code point (Python `str <`
as used by `sort_keys=True`). -/
def charListLe : List Char → List Char → Bool
  | a :: as, b :: bs =>
    if a < b then true
    else if b < a then false
    else charListLe as bs
  | [], _ => true
  | _, _ => false

/-- Stable insertion of a member into a key-sorted member list. -/
def insertMember (kv : String × JValue) : List (String × JValue) → List (String × JValue)
  | [] => [kv]
  | kv2 :: rest =>
    if charListLe kv.1.data kv2.1.data then kv :: kv2 :: rest
    else kv2 :: insertMember kv rest

/-- Stable sort of object members by key (Python `sorted`). -/
def sortMembers : List (String × JValue) → List (String × JValue)
  | [] => []
  | kv :: rest => insertMember kv (sortMembers rest)

mutual

/-- Recursively sort all object keys, as `sort_keys=True` does during
encoding. -/
def sortJ : JValue → JValue
  | .jint i => .jint i
  | .jstr s => .jstr s
  | .jbool b => .jbool b
  | .jarr xs => .jarr (sortJList xs)
  | .jobj kvs => .jobj (sortMembers (sortJMembers kvs))

/-- Sort keys inside each element. -/
def sortJList : List JValue → List JValue
  | [] => []
  | x :: xs => sortJ x :: sortJList xs

/-- Sort keys inside each member value. -/
def sortJMembers : List (String × JValue) → List (String × JValue)
  | [] => []
  | kv :: kvs => (kv.1, sortJ kv.2) :: sortJMembers kvs

end

/-- Newline plus the four-spaces-per-level indentation of `indent=4`. -/
def nlIndent (d : Nat) : List Char := '\n' :: List.replicate (4 * d) ' '

mutual

/-- Model of `json.dumps` with `indent=4` at nesting depth `d` (keys assumed already
sorted): items one per line, separators `","` and `": "`. -/
def encInd : Nat → JValue → List Char
  | _, .jint i => intDec i
  | _, .jstr s => escStr s.data
  | _, .jbool true => ['t', 'r', 'u', 'e']
  | _, .jbool false => ['f', 'a', 'l', 's', 'e']
  | _, .jarr [] => ['[', ']']
  | d, .jarr (x :: xs) =>
      '[' :: (nlIndent (d + 1) ++ encInd (d + 1) x ++ encIndArrTail (d + 1) xs)
        ++ nlIndent d ++ [']']
  | _, .jobj [] => ['\x7b', '\x7d']
  | d, .jobj (kv :: kvs) =>
      '\x7b' :: (nlIndent (d + 1) ++ escStr kv.1.data ++ ':' :: ' ' :: encInd (d + 1) kv.2
          ++ encIndObjTail (d + 1) kvs)
        ++ nlIndent d ++ ['\x7d']

/-- Remaining indented array items. -/
def encIndArrTail : Nat → List JValue → List Char
  | _, [] => []
  | d, x :: xs => ',' :: (nlIndent d ++ encInd d x ++ encIndArrTail d xs)

/-- Remaining indented object members. -/
def encIndObjTail : Nat → List (String × JValue) → List Char
  | _, [] => []
  | d, kv :: kvs =>
      ',' :: (nlIndent d ++ escStr kv.1.data ++ ':' :: ' ' :: encInd d kv.2
        ++ encIndObjTail d kvs)

end

/-- The canonical form `json.dumps(v, indent=4, sort_keys=True)`. -/
def dumpsCanon (v : JValue) : String := String.mk (encInd 0 (sortJ v))

/-- JSON form of one section dictionary, fields in insertion order. -/
def sectionJson (s : SnapSection) : JValue :=
  .jobj [("name", .jstr s.name), ("address", .jint (s.address : Int)),
         ("permissions", .jint (s.permissions : Int)), ("data", .jstr s.data)]

/-- JSON form of one function dictionary. -/
def functionJson (f : FunctionRecord) : JValue :=
  .jobj [("address", .jint (f.address : Int)), ("name", .jstr f.name),
         ("is_import", .jbool f.isImport)]

/-- JSON form of one comment dictionary. -/
def commentJson (c : CommentRecord) : JValue :=
  .jobj [("address", .jint (c.address : Int)), ("thread_id", .jint (c.threadId : Int)),
         ("text", .jstr c.text)]

/-- The `out_map` dictionary as a JSON object, keys in insertion order: the four initial
keys, then `base_address` appended only when some region matched a rule. -/
def outJson (m : OutMap) : JValue :=
  .jobj ([("entrypoint", .jint (m.entrypoint : Int)),
          ("sections", .jarr (m.sections.map sectionJson)),
          ("functions", .jarr (m.functions.map functionJson)),
          ("comments", .jarr (m.comments.map commentJson))]
    ++ (match m.baseAddress with
        | some a => [("base_address", .jint (a : Int))]
        | none => []))

/-- Everything `snapshot` writes to the sink: the fixed header plus the
canonicalized document obtained by the encode-decode-reencode round trip
(`json.dumps`, `json.loads`, `json.dumps(..., indent=4, sort_keys=True)`).
`none` would indicate a decode failure of the compact form; the round-trip
theorem shows it cannot happen. -/
def snapshotOut (env : SnapEnv E) : Except E (Option String) := do
  let m ← buildOutMap env
  .ok ((decode (dumpsCompact (outJson m))).map
        (fun loaded => "DISAS\n" ++ dumpsCanon loaded))

/-- Valid scalar values: every `Char` is below `0x110000` and outside the
surrogate range. -/
theorem char_valid_facts (c : Char) :
    c.toNat < 0xd800 ∨ (0xdfff < c.toNat ∧ c.toNat < 0x110000) := c.valid

/-- Inversion: `hexQuad` undoes `hex4`. -/
theorem hexQuad_hex4 (n : Nat) (h : n < 0x10000) :
    hexQuad (hexDigitChar (n / 4096 % 16)) (hexDigitChar (n / 256 % 16))
      (hexDigitChar (n / 16 % 16)) (hexDigitChar (n % 16)) = some n := by
  rw [hexQuad, charHexVal_hexDigitChar _ (by omega), charHexVal_hexDigitChar _ (by omega),
      charHexVal_hexDigitChar _ (by omega), charHexVal_hexDigitChar _ (by omega)]
  dsimp only
  congr 1
  omega

/-- Parsing inverts escaping, one string body at a time. -/
theorem parseStrBody_escBody (s : List Char) :
    ∀ rest, parseStrBody (escBody s ++ '"' :: rest) = some (s, rest) := by
  induction s with
  | nil => intro rest; simp [escBody, parseStrBody]
  | cons c cs ih =>
    intro rest
    rw [escBody, List.append_assoc]
    by_cases h1 : c = '"'
    · subst h1; simp [escChar, parseStrBody, escCharOf, ih]
    · by_cases h2 : c = '\\'
      · subst h2; simp [escChar, parseStrBody, escCharOf, ih]
      · by_cases h3 : c = '\x08'
        · subst h3; simp [escChar, parseStrBody, escCharOf, ih]
        · by_cases h4 : c = '\x0c'
          · subst h4; simp [escChar, parseStrBody, escCharOf, ih]
          · by_cases h5 : c = '\n'
            · subst h5; simp [escChar, parseStrBody, escCharOf, ih]
            · by_cases h6 : c = '\r'
              · subst h6; simp [escChar, parseStrBody, escCharOf, ih]
              · by_cases h7 : c = '\t'
                · subst h7; simp [escChar, parseStrBody, escCharOf, ih]
                · by_cases h8 : 0x20 ≤ c.toNat ∧ c.toNat ≤ 0x7e
                  · rw [escChar, if_neg h1, if_neg h2, if_neg h3, if_neg h4, if_neg h5,
                      if_neg h6, if_neg h7, if_pos h8]
                    simp [parseStrBody, h1, h2, ih, Nat.not_lt.mpr h8.1]
                  · rw [escChar, if_neg h1, if_neg h2, if_neg h3, if_neg h4, if_neg h5,
                      if_neg h6, if_neg h7, if_neg h8]
                    by_cases h9 : c.toNat < 0x10000
                    · rw [if_pos h9, uEsc, hex4]
                      simp only [List.cons_append, List.nil_append]
                      rw [parseStrBody, hexQuad_hex4 c.toNat h9]
                      dsimp only
                      have hsur := char_valid_facts c
                      rw [if_neg (by omega), if_neg (by omega), ih rest]
                      simp [Char.ofNat_toNat]
                    · rw [if_neg h9, uEsc, uEsc, hex4, hex4]
                      simp only [List.cons_append, List.nil_append, List.append_assoc]
                      have hv := char_valid_facts c
                      have hhi : 0xd800 + (c.toNat - 0x10000) / 0x400 < 0x10000 := by omega
                      have hlo : 0xdc00 + (c.toNat - 0x10000) % 0x400 < 0x10000 := by omega
                      rw [parseStrBody, hexQuad_hex4 _ hhi]
                      dsimp only
                      rw [if_pos (by constructor <;> omega)]
                      split
                      · next g1 g2 g3 g4 rest2 heq =>
                        simp only [List.cons.injEq] at heq
                        obtain ⟨-, -, e1, e2, e3, e4, e5⟩ := heq
                        rw [← e1, ← e2, ← e3, ← e4, ← e5, hexQuad_hex4 _ hlo]
                        dsimp only
                        rw [if_pos (by constructor <;> omega)]
                        rw [ih rest]
                        dsimp only
                        have hcode : 0x10000
                            + (0xd800 + (c.toNat - 0x10000) / 0x400 - 0xd800) * 0x400
                            + (0xdc00 + (c.toNat - 0x10000) % 0x400 - 0xdc00) = c.toNat := by
                          omega
                        rw [hcode, Char.ofNat_toNat]
                      · next hmis =>
                        exact absurd rfl (hmis _ _ _ _ _)

/-- A nonzero decimal rendering unfolds one digit. -/
theorem natDecRev_pos (n : Nat) (h : n ≠ 0) :
    natDecRev n = hexDigitChar (n % 10) :: natDecRev (n / 10) := by
  cases n with
  | zero => exact absurd rfl h
  | succ m => rw [natDecRev]

/-- Facts about decimal digit characters, used to steer the parser. -/
theorem decDigitFacts : ∀ d, d < 10 →
    (hexDigitChar d).isDigit = true ∧ (hexDigitChar d).toNat - 48 = d ∧
    isWsChar (hexDigitChar d) = false ∧ hexDigitChar d ≠ '"' ∧
    hexDigitChar d ≠ 't' ∧ hexDigitChar d ≠ 'f' ∧ hexDigitChar d ≠ '-' ∧
    hexDigitChar d ≠ '[' ∧ hexDigitChar d ≠ '\x7b' ∧ hexDigitChar d ≠ ']' ∧
    hexDigitChar d ≠ '\x7d' ∧ hexDigitChar d ≠ ',' := by decide

/-- Every character of `natDecRev` is a decimal digit character. -/
theorem natDecRev_shape (n : Nat) : ∀ c ∈ natDecRev n, ∃ e, e < 10 ∧ c = hexDigitChar e := by
  induction n using Nat.strong_induction_on with
  | _ n ih =>
    intro c hc
    by_cases h : n = 0
    · subst h; simp [natDecRev] at hc
    · rw [natDecRev_pos n h] at hc
      rcases List.mem_cons.mp hc with hq | hq
      · exact ⟨n % 10, Nat.mod_lt n (by omega), hq⟩
      · exact ih (n / 10) (Nat.div_lt_self (Nat.pos_of_ne_zero h) (by omega)) c hq

/-- The decimal rendering starts with a digit character and consists only of
digit characters. -/
theorem natDec_shape (n : Nat) : ∃ d ds, d < 10 ∧ natDec n = hexDigitChar d :: ds ∧
    (∀ c ∈ ds, ∃ e, e < 10 ∧ c = hexDigitChar e) := by
  by_cases h : n = 0
  · subst h
    exact ⟨0, [], by omega, by decide, by simp⟩
  · unfold natDec
    rw [if_neg h]
    have hne : (natDecRev n).reverse ≠ [] := by
      rw [natDecRev_pos n h]; simp
    obtain ⟨c, ds, hcds⟩ := List.exists_cons_of_ne_nil hne
    have hmemc : c ∈ natDecRev n := by
      rw [← List.mem_reverse, hcds]; simp
    obtain ⟨d, hd, rfl⟩ := natDecRev_shape n c hmemc
    refine ⟨d, ds, hd, hcds, ?_⟩
    intro c2 hc2
    apply natDecRev_shape n
    rw [← List.mem_reverse, hcds]
    simp [hc2]

/-- Digit consumption stops at a non-digit (or the end of input). -/
theorem parseDigits_stop (acc : Nat) (l : List Char)
    (h : ∀ c, l.head? = some c → c.isDigit = false) : parseDigits acc l = (acc, l) := by
  cases l with
  | nil => rfl
  | cons c rest =>
    rw [parseDigits, if_neg (by simp [h c rfl])]

/-- Consuming the reversed digit list multiplies the accumulator past it. -/
theorem parseDigits_natDecRev (n : Nat) :
    ∀ acc rest, parseDigits acc ((natDecRev n).reverse ++ rest)
      = parseDigits (acc * 10 ^ (natDecRev n).length + n) rest := by
  induction n using Nat.strong_induction_on with
  | _ n ih =>
    intro acc rest
    by_cases h : n = 0
    · subst h; simp [natDecRev]
    · rw [natDecRev_pos n h, List.reverse_cons, List.append_assoc, List.cons_append,
        List.nil_append,
        ih (n / 10) (Nat.div_lt_self (Nat.pos_of_ne_zero h) (by omega)) acc
          (hexDigitChar (n % 10) :: rest)]
      have hd := decDigitFacts (n % 10) (Nat.mod_lt n (by omega))
      rw [parseDigits, if_pos (by simp [hd.1]), hd.2.1, List.length_cons]
      congr 1
      have hpow : (10 : Nat) ^ ((natDecRev (n / 10)).length + 1)
          = 10 ^ (natDecRev (n / 10)).length * 10 := by ring
      rw [hpow, ← Nat.mul_assoc]
      generalize acc * 10 ^ (natDecRev (n / 10)).length = m
      omega

/-- Parsing the decimal rendering of `n` followed by a non-digit yields `n`. -/
theorem parseDigits_natDec (n : Nat) (rest : List Char)
    (hrest : ∀ c, rest.head? = some c → c.isDigit = false) :
    parseDigits 0 (natDec n ++ rest) = (n, rest) := by
  by_cases h : n = 0
  · subst h
    have : natDec 0 = ['0'] := rfl
    rw [this, List.cons_append, List.nil_append, parseDigits, if_pos (by decide)]
    have h0 : ('0'.toNat - 48) = 0 := by decide
    rw [h0, parseDigits_stop _ rest hrest]
  · unfold natDec
    rw [if_neg h, parseDigits_natDecRev n 0 rest, parseDigits_stop _ rest hrest]
    simp

/-- Input whose head is not a digit. -/
def nonDigitHead (l : List Char) : Prop :=
  ∀ c, l.head? = some c → c.isDigit = false

/-- Leading whitespace is dropped one character at a time. -/
theorem skipWs_cons_true (c : Char) (l : List Char) (h : isWsChar c = true) :
    skipWs (c :: l) = skipWs l := by
  simp [skipWs, List.dropWhile_cons, h]

/-- A non-whitespace head stops whitespace skipping. -/
theorem skipWs_cons_false (c : Char) (l : List Char) (h : isWsChar c = false) :
    skipWs (c :: l) = c :: l := by
  simp [skipWs, List.dropWhile_cons, h]

/-- One leading whitespace character is ignored by `parseVal`. -/
theorem parseVal_ws (fuel : Nat) (c : Char) (hc : isWsChar c = true) (s : List Char) :
    parseVal fuel (c :: s) = parseVal fuel s := by
  cases fuel with
  | zero => rfl
  | succ f => rw [parseVal, parseVal, skipWs_cons_true c s hc]

/-- One leading whitespace character is ignored by `parseElems`. -/
theorem parseElems_ws (fuel : Nat) (c : Char) (hc : isWsChar c = true) (s : List Char) :
    parseElems fuel (c :: s) = parseElems fuel s := by
  cases fuel with
  | zero => rfl
  | succ f => rw [parseElems, parseElems, parseVal_ws f c hc s]

/-- One leading whitespace character is ignored by `parseMembers`. -/
theorem parseMembers_ws (fuel : Nat) (c : Char) (hc : isWsChar c = true) (s : List Char) :
    parseMembers fuel (c :: s) = parseMembers fuel s := by
  cases fuel with
  | zero => rfl
  | succ f => rw [parseMembers, parseMembers, skipWs_cons_true c s hc]

/-- Rebuilding a string from its character data is the identity. -/
theorem stringMk_data (s : String) : String.mk s.data = s := rfl

/-- Every value occupies at least one unit of parser fuel. -/
theorem jsize_pos (v : JValue) : 1 ≤ jsize v := by
  cases v <;> simp [jsize]

/-- The first character of any encoded value: never whitespace, a digit
context closer, or a separator. -/
theorem encV_head (v : JValue) : ∃ c cs, encV v = c :: cs ∧ isWsChar c = false ∧
    c ≠ ']' ∧ c ≠ '\x7d' := by
  cases v with
  | jint i =>
    unfold encV intDec
    by_cases h : i < 0
    · rw [if_pos h]
      refine ⟨'-', _, rfl, ?_, ?_, ?_⟩ <;> decide
    · rw [if_neg h]
      obtain ⟨d, ds, hd, hshape, -⟩ := natDec_shape i.toNat
      obtain ⟨-, -, hws, -, -, -, -, -, -, hb1, hb2, -⟩ := decDigitFacts d hd
      exact ⟨hexDigitChar d, ds, hshape, hws, hb1, hb2⟩
  | jstr s => refine ⟨'"', _, rfl, ?_, ?_, ?_⟩ <;> decide
  | jbool b => cases b with
    | true => refine ⟨'t', _, rfl, ?_, ?_, ?_⟩ <;> decide
    | false => refine ⟨'f', _, rfl, ?_, ?_, ?_⟩ <;> decide
  | jarr xs => cases xs with
    | nil => refine ⟨'[', _, rfl, ?_, ?_, ?_⟩ <;> decide
    | cons x xs2 => refine ⟨'[', _, rfl, ?_, ?_, ?_⟩ <;> decide
  | jobj kvs => cases kvs with
    | nil => refine ⟨'\x7b', _, rfl, ?_, ?_, ?_⟩ <;> decide
    | cons kv kvs2 => refine ⟨'\x7b', _, rfl, ?_, ?_, ?_⟩ <;> decide

/-- Parsing the encoded elements of a nonempty array consumes them and the
closing bracket. -/
theorem parseElems_encTail (x : JValue) (xs : List JValue)
    (hIH : ∀ y, (y = x ∨ y ∈ xs) → ∀ f r, jsize y ≤ f → nonDigitHead r →
      parseVal f (encV y ++ r) = some (y, r)) :
    ∀ fuel, jsizeElems (x :: xs) ≤ fuel → ∀ rest,
      parseElems fuel (encV x ++ (encArrTail xs ++ (']' :: rest))) = some (x :: xs, rest) := by
  induction xs generalizing x with
  | nil =>
    intro fuel hfuel rest
    have hx1 := jsize_pos x
    have hsz : jsizeElems [x] = 1 + jsize x + 0 := rfl
    obtain ⟨f, rfl⟩ : ∃ f, fuel = f + 1 := ⟨fuel - 1, by omega⟩
    rw [parseElems]
    rw [show encArrTail [] = [] from rfl, List.nil_append]
    rw [hIH x (Or.inl rfl) f (']' :: rest) (by omega)
      (fun c hc => by injection hc with h2; rw [← h2]; decide)]
    dsimp only
    rw [skipWs_cons_false ']' rest (by decide)]
    split
    · next r2 heq => injection heq with h1 h2; exact absurd h1 (by decide)
    · next r2 heq => injection heq with h1 h2; rw [h2]
    · next x2 hcomma hbracket => exact absurd rfl (hbracket rest)
  | cons y ys ih =>
    intro fuel hfuel rest
    have hx1 := jsize_pos x
    have hy1 := jsize_pos y
    have hsz : jsizeElems (x :: y :: ys) = 1 + jsize x + jsizeElems (y :: ys) := rfl
    have hsz2 : jsizeElems (y :: ys) = 1 + jsize y + jsizeElems ys := rfl
    obtain ⟨f, rfl⟩ : ∃ f, fuel = f + 1 := ⟨fuel - 1, by omega⟩
    rw [parseElems]
    rw [show encArrTail (y :: ys) = ',' :: ' ' :: (encV y ++ encArrTail ys) from rfl]
    have hassoc : (',' :: ' ' :: (encV y ++ encArrTail ys)) ++ (']' :: rest)
        = ',' :: ' ' :: (encV y ++ (encArrTail ys ++ (']' :: rest))) := by simp
    rw [hassoc]
    rw [hIH x (Or.inl rfl) f _ (by omega)
      (fun c hc => by injection hc with h2; rw [← h2]; decide)]
    dsimp only
    rw [skipWs_cons_false ',' _ (by decide)]
    split
    · next r2 heq =>
      injection heq with h1 h2
      rw [← h2, parseElems_ws f ' ' (by decide),
        ih y (fun z hz => hIH z (Or.inr (List.mem_cons.mpr hz))) f (by omega) rest]
    · next r2 heq => injection heq with h1 h2; exact absurd h1 (by decide)
    · next x2 hcomma hbracket =>
      exact absurd rfl (hcomma (' ' :: (encV y ++ (encArrTail ys ++ (']' :: rest)))))

/-- Parsing the encoded members of a nonempty object consumes them and the
closing brace. -/
theorem parseMembers_encTail :
    ∀ (kvs : List (String × JValue)) (k : String) (v : JValue),
      (∀ y, (y = v ∨ ∃ kv ∈ kvs, y = kv.2) → ∀ f r, jsize y ≤ f → nonDigitHead r →
        parseVal f (encV y ++ r) = some (y, r)) →
      ∀ fuel, jsizeMembers ((k, v) :: kvs) ≤ fuel → ∀ rest,
        parseMembers fuel
          (escStr k.data ++ (':' :: ' ' :: (encV v ++ (encObjTail kvs ++ ('\x7d' :: rest)))))
          = some ((k, v) :: kvs, rest) := by
  intro kvs
  induction kvs with
  | nil =>
    intro k v hIH fuel hfuel rest
    have hv1 := jsize_pos v
    have hsz : jsizeMembers [(k, v)] = 1 + jsize v + 0 := rfl
    obtain ⟨f, rfl⟩ : ∃ f, fuel = f + 1 := ⟨fuel - 1, by omega⟩
    rw [parseMembers]
    rw [show escStr k.data = '"' :: (escBody k.data ++ ['"']) from rfl]
    simp only [encObjTail, List.cons_append, List.append_assoc, List.singleton_append,
      List.nil_append]
    rw [skipWs_cons_false '"' _ (by decide)]
    split
    · next rest1 heq =>
      injection heq with h1 h2
      rw [← h2, parseStrBody_escBody k.data]
      dsimp only
      rw [skipWs_cons_false ':' _ (by decide)]
      split
      · next r2 heq2 =>
        injection heq2 with h3 h4
        rw [← h4, parseVal_ws f ' ' (by decide)]
        rw [hIH v (Or.inl rfl) f ('\x7d' :: rest) (by omega)
          (fun c hc => by injection hc with h5; rw [← h5]; decide)]
        dsimp only
        rw [skipWs_cons_false '\x7d' rest (by decide)]
        split
        · next r4 heq3 => injection heq3 with h6 h7; exact absurd h6 (by decide)
        · next r4 heq3 =>
          injection heq3 with h6 h7
          rw [h7, stringMk_data]
        · next x2 hcomma hbrace => exact absurd rfl (hbrace _)
      · next x2 hcolon => exact absurd rfl (hcolon _)
    · next x2 hquote => exact absurd rfl (hquote _)
  | cons kv2 kvs2 ih =>
    obtain ⟨k2, v2⟩ := kv2
    intro k v hIH fuel hfuel rest
    have hv1 := jsize_pos v
    have hv2 := jsize_pos v2
    have hsz : jsizeMembers ((k, v) :: (k2, v2) :: kvs2)
        = 1 + jsize v + jsizeMembers ((k2, v2) :: kvs2) := rfl
    have hsz2 : jsizeMembers ((k2, v2) :: kvs2) = 1 + jsize v2 + jsizeMembers kvs2 := rfl
    obtain ⟨f, rfl⟩ : ∃ f, fuel = f + 1 := ⟨fuel - 1, by omega⟩
    rw [parseMembers]
    rw [show escStr k.data = '"' :: (escBody k.data ++ ['"']) from rfl]
    simp only [encObjTail, List.cons_append, List.append_assoc, List.singleton_append,
      List.nil_append]
    rw [skipWs_cons_false '"' _ (by decide)]
    split
    · next rest1 heq =>
      injection heq with h1 h2
      rw [← h2, parseStrBody_escBody k.data]
      dsimp only
      rw [skipWs_cons_false ':' _ (by decide)]
      split
      · next r2 heq2 =>
        injection heq2 with h3 h4
        rw [← h4, parseVal_ws f ' ' (by decide)]
        rw [hIH v (Or.inl rfl) f _ (by omega)
          (fun c hc => by injection hc with h5; rw [← h5]; decide)]
        dsimp only
        rw [skipWs_cons_false ',' _ (by decide)]
        split
        · next r4 heq3 =>
          injection heq3 with h6 h7
          rw [← h7, parseMembers_ws f ' ' (by decide)]
          rw [ih k2 v2 (fun z hz => hIH z (Or.inr (by
                rcases hz with hzv | ⟨kv3, hkv3, hzeq⟩
                · exact ⟨(k2, v2), List.mem_cons_self _ _, hzv⟩
                · exact ⟨kv3, List.mem_cons_of_mem _ hkv3, hzeq⟩)))
            f (by omega) rest]
        · next r4 heq3 => injection heq3 with h6 h7; exact absurd h6 (by decide)
        · next x2 hcomma hbrace => exact absurd rfl (hcomma _)
      · next x2 hcolon => exact absurd rfl (hcolon _)
    · next x2 hquote => exact absurd rfl (hquote _)

/-- The central round-trip lemma: parsing the compact encoding of any value
returns that value, leaving a non-digit-headed remainder untouched. -/
theorem parseVal_encV :
    ∀ (v : JValue) (fuel : Nat), jsize v ≤ fuel → ∀ rest, nonDigitHead rest →
      parseVal fuel (encV v ++ rest) = some (v, rest) := by
  have H : ∀ (n : Nat) (v : JValue), sizeOf v ≤ n → ∀ fuel, jsize v ≤ fuel →
      ∀ rest, nonDigitHead rest → parseVal fuel (encV v ++ rest) = some (v, rest) := by
    intro n
    induction n with
    | zero =>
      intro v hv
      exact absurd hv (by cases v <;> simp)
    | succ n ihN =>
      intro v hv fuel hfuel rest hrest
      have hj := jsize_pos v
      obtain ⟨f, rfl⟩ : ∃ f, fuel = f + 1 := ⟨fuel - 1, by omega⟩
      cases v with
      | jint i =>
        rw [parseVal]
        simp only [encV]
        unfold intDec
        by_cases hneg : i < 0
        · rw [if_pos hneg]
          obtain ⟨d, ds, hd, hnd, hds⟩ := natDec_shape i.natAbs
          rw [hnd]
          simp only [List.cons_append]
          rw [skipWs_cons_false '-' _ (by decide)]
          split
          case _ heq => exact absurd heq (by simp)
          case _ heq => injection heq with ha hb; exact absurd ha (by decide)
          case _ heq => injection heq with ha hb; exact absurd ha (by decide)
          case _ heq => injection heq with ha hb; exact absurd ha (by decide)
          case _ heq =>
            injection heq with ha hb
            injection hb with hc hd2
            rw [← hc, ← hd2]
            obtain ⟨hdig, hsub, -, -, -, -, -, -, -, -, -, -⟩ := decDigitFacts d hd
            rw [if_pos hdig, hsub]
            have hstep : parseDigits 0 (natDec i.natAbs ++ rest) = parseDigits d (ds ++ rest) := by
              rw [hnd, List.cons_append, parseDigits, if_pos hdig, hsub]
              simp
            have hwhole := parseDigits_natDec i.natAbs rest hrest
            rw [hstep] at hwhole
            rw [hwhole]
            have hia : -((i.natAbs : Nat) : Int) = i := by omega
            rw [hia]
          case _ heq => injection heq with ha hb; exact absurd ha (by decide)
          case _ heq => injection heq with ha hb; exact absurd ha (by decide)
          case _ xs0 c0 r0 g1 g2 g3 g4 g5 g6 heq =>
            injection heq with ha hb
            exact (g4 _ _ ha.symm hb.symm).elim
        · rw [if_neg hneg]
          obtain ⟨d, ds, hd, hnd, hds⟩ := natDec_shape i.toNat
          rw [hnd]
          simp only [List.cons_append]
          obtain ⟨hdig, hsub, hws2, hqz, htz, hfz, hmz, hlb, hlb2, -, -, -⟩ :=
            decDigitFacts d hd
          rw [skipWs_cons_false _ _ hws2]
          split
          case _ heq => exact absurd heq (by simp)
          case _ heq => injection heq with ha hb; exact absurd ha hqz
          case _ heq => injection heq with ha hb; exact absurd ha htz
          case _ heq => injection heq with ha hb; exact absurd ha hfz
          case _ heq => injection heq with ha hb; exact absurd ha hmz
          case _ heq => injection heq with ha hb; exact absurd ha hlb
          case _ heq => injection heq with ha hb; exact absurd ha hlb2
          case _ xs0 c0 r0 g1 g2 g3 g4 g5 g6 heq =>
            injection heq with ha hb
            rw [← ha, ← hb]
            rw [if_pos hdig, hsub]
            have hstep : parseDigits 0 (natDec i.toNat ++ rest) = parseDigits d (ds ++ rest) := by
              rw [hnd, List.cons_append, parseDigits, if_pos hdig, hsub]
              simp
            have hwhole := parseDigits_natDec i.toNat rest hrest
            rw [hstep] at hwhole
            rw [hwhole]
            have hia : ((i.toNat : Nat) : Int) = i := by omega
            rw [hia]
      | jstr s =>
        rw [parseVal]
        simp only [encV]
        rw [show escStr s.data = '"' :: (escBody s.data ++ ['"']) from rfl]
        simp only [List.cons_append, List.append_assoc, List.singleton_append, List.nil_append]
        rw [skipWs_cons_false '"' _ (by decide)]
        split
        case _ heq => exact absurd heq (by simp)
        case _ heq =>
          injection heq with ha hb
          rw [← hb, parseStrBody_escBody s.data]
        case _ heq => injection heq with ha hb; exact absurd ha (by decide)
        case _ heq => injection heq with ha hb; exact absurd ha (by decide)
        case _ heq => injection heq with ha hb; exact absurd ha (by decide)
        case _ heq => injection heq with ha hb; exact absurd ha (by decide)
        case _ heq => injection heq with ha hb; exact absurd ha (by decide)
        case _ xs0 c0 r0 g1 g2 g3 g4 g5 g6 heq =>
          injection heq with ha hb
          exact (g1 ha.symm).elim
      | jbool b =>
        cases b with
        | true =>
          rw [parseVal]
          simp only [encV, List.cons_append, List.nil_append]
          rw [skipWs_cons_false 't' _ (by decide)]
          split
          case _ heq => exact absurd heq (by simp)
          case _ heq => injection heq with ha hb; exact absurd ha (by decide)
          case _ heq =>
            injection heq with ha hb
            injection hb with hb1 hb2
            injection hb2 with hc1 hc2
            injection hc2 with hd1 hd2
            rw [hd2]
          case _ heq => injection heq with ha hb; exact absurd ha (by decide)
          case _ heq => injection heq with ha hb; exact absurd ha (by decide)
          case _ heq => injection heq with ha hb; exact absurd ha (by decide)
          case _ heq => injection heq with ha hb; exact absurd ha (by decide)
          case _ xs0 c0 r0 g1 g2 g3 g4 g5 g6 heq =>
            injection heq with ha hb
            exact (g2 _ ha.symm hb.symm).elim
        | false =>
          rw [parseVal]
          simp only [encV, List.cons_append, List.nil_append]
          rw [skipWs_cons_false 'f' _ (by decide)]
          split
          case _ heq => exact absurd heq (by simp)
          case _ heq => injection heq with ha hb; exact absurd ha (by decide)
          case _ heq => injection heq with ha hb; exact absurd ha (by decide)
          case _ heq =>
            injection heq with ha hb
            injection hb with hb1 hb2
            injection hb2 with hc1 hc2
            injection hc2 with hd1 hd2
            injection hd2 with he1 he2
            rw [he2]
          case _ heq => injection heq with ha hb; exact absurd ha (by decide)
          case _ heq => injection heq with ha hb; exact absurd ha (by decide)
          case _ heq => injection heq with ha hb; exact absurd ha (by decide)
          case _ xs0 c0 r0 g1 g2 g3 g4 g5 g6 heq =>
            injection heq with ha hb
            exact (g3 _ ha.symm hb.symm).elim
      | jarr xs =>
        cases xs with
        | nil =>
          rw [parseVal]
          simp only [encV, List.cons_append, List.nil_append]
          rw [skipWs_cons_false '[' _ (by decide)]
          split
          case _ heq => exact absurd heq (by simp)
          case _ heq => injection heq with ha hb; exact absurd ha (by decide)
          case _ heq => injection heq with ha hb; exact absurd ha (by decide)
          case _ heq => injection heq with ha hb; exact absurd ha (by decide)
          case _ heq => injection heq with ha hb; exact absurd ha (by decide)
          case _ heq =>
            injection heq with ha hb
            rw [← hb]
            rw [skipWs_cons_false ']' _ (by decide)]
            split
            case _ heq2 => injection heq2 with hc hd2; rw [hd2]
            case _ x2 hne => exact absurd rfl (hne rest)
          case _ heq => injection heq with ha hb; exact absurd ha (by decide)
          case _ xs0 c0 r0 g1 g2 g3 g4 g5 g6 heq =>
            injection heq with ha hb
            exact (g5 ha.symm).elim
        | cons x xs2 =>
          have hx : sizeOf x ≤ n := by
            simp only [JValue.jarr.sizeOf_spec, List.cons.sizeOf_spec] at hv
            omega
          have hxs : ∀ y ∈ xs2, sizeOf y ≤ n := by
            intro y hy
            have hym := List.sizeOf_lt_of_mem hy
            simp only [JValue.jarr.sizeOf_spec, List.cons.sizeOf_spec] at hv
            omega
          have hszeq : jsize (JValue.jarr (x :: xs2)) = 1 + jsizeElems (x :: xs2) := by
            simp [jsize]
          rw [parseVal]
          simp only [encV, List.cons_append, List.nil_append, List.append_assoc,
            List.singleton_append]
          rw [skipWs_cons_false '[' _ (by decide)]
          split
          case _ heq => exact absurd heq (by simp)
          case _ heq => injection heq with ha hb; exact absurd ha (by decide)
          case _ heq => injection heq with ha hb; exact absurd ha (by decide)
          case _ heq => injection heq with ha hb; exact absurd ha (by decide)
          case _ heq => injection heq with ha hb; exact absurd ha (by decide)
          case _ heq =>
            injection heq with ha hb
            rw [← hb]
            obtain ⟨c, cs, hcx, hws, hnb1, hnb2⟩ := encV_head x
            rw [hcx]
            simp only [List.cons_append]
            rw [skipWs_cons_false c _ hws]
            split
            case _ heq2 =>
              injection heq2 with hc2 hd2
              exact absurd hc2 hnb1
            case _ x2 hne =>
              rw [← List.cons_append, ← hcx,
                parseElems_encTail x xs2
                  (fun y hy f2 r2 hjs hnd =>
                    ihN y (by rcases hy with rfl | hmem
                              · exact hx
                              · exact hxs y hmem) f2 hjs r2 hnd)
                  f (by omega) rest]
          case _ heq => injection heq with ha hb; exact absurd ha (by decide)
          case _ xs0 c0 r0 g1 g2 g3 g4 g5 g6 heq =>
            injection heq with ha hb
            exact (g5 ha.symm).elim
      | jobj kvs =>
        cases kvs with
        | nil =>
          rw [parseVal]
          simp only [encV, List.cons_append, List.nil_append]
          rw [skipWs_cons_false '\x7b' _ (by decide)]
          split
          case _ heq => exact absurd heq (by simp)
          case _ heq => injection heq with ha hb; exact absurd ha (by decide)
          case _ heq => injection heq with ha hb; exact absurd ha (by decide)
          case _ heq => injection heq with ha hb; exact absurd ha (by decide)
          case _ heq => injection heq with ha hb; exact absurd ha (by decide)
          case _ heq => injection heq with ha hb; exact absurd ha (by decide)
          case _ heq =>
            injection heq with ha hb
            rw [← hb]
            rw [skipWs_cons_false '\x7d' _ (by decide)]
            split
            case _ heq2 => injection heq2 with hc hd2; rw [hd2]
            case _ x2 hne => exact absurd rfl (hne rest)
          case _ xs0 c0 r0 g1 g2 g3 g4 g5 g6 heq =>
            injection heq with ha hb
            exact (g6 ha.symm).elim
        | cons kv kvs2 =>
          obtain ⟨k1, v1⟩ := kv
          have hv1 : sizeOf v1 ≤ n := by
            simp only [JValue.jobj.sizeOf_spec, List.cons.sizeOf_spec,
              Prod.mk.sizeOf_spec] at hv
            omega
          have hkvs : ∀ kv3 ∈ kvs2, sizeOf kv3.2 ≤ n := by
            intro kv3 h3
            have h3m := List.sizeOf_lt_of_mem h3
            obtain ⟨a, b⟩ := kv3
            simp only [JValue.jobj.sizeOf_spec, List.cons.sizeOf_spec,
              Prod.mk.sizeOf_spec] at hv h3m
            simp only [Prod.snd]
            omega
          have hszeq : jsize (JValue.jobj ((k1, v1) :: kvs2))
              = 1 + jsizeMembers ((k1, v1) :: kvs2) := by
            simp [jsize]
          rw [parseVal]
          simp only [encV, List.cons_append, List.nil_append, List.append_assoc,
            List.singleton_append]
          rw [skipWs_cons_false '\x7b' _ (by decide)]
          split
          case _ heq => exact absurd heq (by simp)
          case _ heq => injection heq with ha hb; exact absurd ha (by decide)
          case _ heq => injection heq with ha hb; exact absurd ha (by decide)
          case _ heq => injection heq with ha hb; exact absurd ha (by decide)
          case _ heq => injection heq with ha hb; exact absurd ha (by decide)
          case _ heq => injection heq with ha hb; exact absurd ha (by decide)
          case _ heq =>
            injection heq with ha hb
            rw [← hb]
            rw [show escStr k1.data = '"' :: (escBody k1.data ++ ['"']) from rfl]
            simp only [List.cons_append, List.append_assoc, List.singleton_append]
            rw [skipWs_cons_false '"' _ (by decide)]
            split
            case _ heq2 =>
              injection heq2 with hc2 hd2
              exact absurd hc2 (by decide)
            case _ x2 hne =>
              simp only [List.nil_append]
              rw [show ('"' : Char) :: (escBody k1.data
                    ++ ('"' :: (':' :: ' ' :: (encV v1 ++ (encObjTail kvs2 ++ ('\x7d' :: rest))))))
                  = escStr k1.data
                    ++ (':' :: ' ' :: (encV v1 ++ (encObjTail kvs2 ++ ('\x7d' :: rest))))
                from by simp [escStr]]
              rw [parseMembers_encTail kvs2 k1 v1
                  (fun y hy f2 r2 hjs hnd =>
                    ihN y (by rcases hy with rfl | ⟨kv3, hkv3, rfl⟩
                              · exact hv1
                              · exact hkvs kv3 hkv3) f2 hjs r2 hnd)
                  f (by omega) rest]
          case _ xs0 c0 r0 g1 g2 g3 g4 g5 g6 heq =>
            injection heq with ha hb
            exact (g6 ha.symm).elim
  intro v fuel hfuel rest hrest
  exact H (sizeOf v) v (Nat.le_refl _) fuel hfuel rest hrest

/-- The decimal rendering is never empty. -/
theorem natDec_ne_nil (n : Nat) : natDec n ≠ [] := by
  obtain ⟨d, ds, -, hnd, -⟩ := natDec_shape n
  rw [hnd]
  simp

/-- The parser fuel bound is covered by the encoding length. -/
theorem jsize_le_encV : ∀ (v : JValue), jsize v ≤ (encV v).length := by
  have H : ∀ (n : Nat) (v : JValue), sizeOf v ≤ n → jsize v ≤ (encV v).length := by
    intro n
    induction n with
    | zero =>
      intro v hv
      exact absurd hv (by cases v <;> simp)
    | succ n ihN =>
      intro v hv
      cases v with
      | jint i =>
        simp only [jsize, encV]
        unfold intDec
        by_cases h : i < 0
        · rw [if_pos h]; simp
        · rw [if_neg h]
          have := natDec_ne_nil i.toNat
          cases hq : natDec i.toNat with
          | nil => exact absurd hq this
          | cons a l => simp
      | jstr s =>
        simp only [jsize, encV]
        rw [show escStr s.data = '"' :: (escBody s.data ++ ['"']) from rfl]
        simp
      | jbool b => cases b <;> simp [jsize, encV]
      | jarr xs =>
        cases xs with
        | nil => simp [jsize, jsizeElems, encV]
        | cons x xs2 =>
          have hx : sizeOf x ≤ n := by
            simp only [JValue.jarr.sizeOf_spec, List.cons.sizeOf_spec] at hv
            omega
          have hxs : ∀ y ∈ xs2, sizeOf y ≤ n := by
            intro y hy
            have hym := List.sizeOf_lt_of_mem hy
            simp only [JValue.jarr.sizeOf_spec, List.cons.sizeOf_spec] at hv
            omega
          have helems : ∀ (ys : List JValue), (∀ y ∈ ys, sizeOf y ≤ n) →
              jsizeElems ys ≤ (encArrTail ys).length := by
            intro ys
            induction ys with
            | nil => intro _; simp [jsizeElems, encArrTail]
            | cons y ys2 ihy =>
              intro hys
              have h1 := ihN y (hys y (by simp))
              have h2 := ihy (fun z hz => hys z (by simp [hz]))
              simp only [jsizeElems, encArrTail]
              simp only [List.length_cons, List.length_append]
              omega
          have h1 := ihN x hx
          have h2 := helems xs2 hxs
          have h3 : jsizeElems (x :: xs2) = 1 + jsize x + jsizeElems xs2 := by
            simp [jsizeElems]
          simp only [jsize, encV, h3]
          simp only [List.length_cons, List.length_append, List.cons_append]
          omega
      | jobj kvs =>
        cases kvs with
        | nil => simp [jsize, jsizeMembers, encV]
        | cons kv kvs2 =>
          obtain ⟨k1, v1⟩ := kv
          have hv1 : sizeOf v1 ≤ n := by
            simp only [JValue.jobj.sizeOf_spec, List.cons.sizeOf_spec,
              Prod.mk.sizeOf_spec] at hv
            omega
          have hkvs : ∀ kv3 ∈ kvs2, sizeOf kv3.2 ≤ n := by
            intro kv3 h3
            have h3m := List.sizeOf_lt_of_mem h3
            obtain ⟨a, b⟩ := kv3
            simp only [JValue.jobj.sizeOf_spec, List.cons.sizeOf_spec,
              Prod.mk.sizeOf_spec] at hv h3m
            simp only [Prod.snd]
            omega
          have hmem : ∀ (ms : List (String × JValue)), (∀ kv3 ∈ ms, sizeOf kv3.2 ≤ n) →
              jsizeMembers ms ≤ (encObjTail ms).length := by
            intro ms
            induction ms with
            | nil => intro _; simp [jsizeMembers, encObjTail]
            | cons m ms2 ihm =>
              intro hms
              have h1 := ihN m.2 (hms m (by simp))
              have h2 := ihm (fun z hz => hms z (by simp [hz]))
              have h4 : jsizeMembers (m :: ms2) = 1 + jsize m.2 + jsizeMembers ms2 := by
                simp [jsizeMembers]
              simp only [h4, encObjTail]
              simp only [List.length_cons, List.length_append]
              omega
          have h1 := ihN v1 hv1
          have h2 := hmem kvs2 hkvs
          have h3 : jsizeMembers ((k1, v1) :: kvs2) = 1 + jsize v1 + jsizeMembers kvs2 := by
            simp [jsizeMembers]
          simp only [jsize, encV, h3]
          simp only [List.length_cons, List.length_append, List.cons_append]
          omega
  intro v
  exact H (sizeOf v) v (Nat.le_refl _)

/-- Decoding inverts compact encoding on every document value. -/
theorem decode_dumpsCompact (v : JValue) : decode (dumpsCompact v) = some v := by
  unfold decode dumpsCompact
  rw [show (String.mk (encV v)).data = encV v from rfl]
  have h1 : parseVal ((encV v).length + 1) (encV v ++ []) = some (v, []) :=
    parseVal_encV v ((encV v).length + 1)
      (by have := jsize_le_encV v; omega) []
      (by intro c hc; simp at hc)
  rw [List.append_nil] at h1
  rw [h1]
  simp [skipWs]

/-- Any section produced by classification carries its region's address. -/
theorem classifyRegion_addr (env : SnapEnv E) (r : RegionInfo) (sec : SnapSection)
    (d : List Nat) (h : classifyRegion env r = .ok (some (sec, d))) :
    sec.address = r.address := by
  unfold classifyRegion at h
  by_cases hm : matchesRule r
  · rw [if_pos hm] at h
    cases hread : env.readMem r.address r.size with
    | error e => rw [hread] at h; exact absurd h (by simp)
    | ok d2 =>
      rw [hread] at h
      injection h with h2
      exact (classifyPure_addr env r d2 sec d h2).1
  · rw [if_neg hm] at h
    injection h with h2
    exact absurd h2.symm (by simp)

/-- Loop invariant: every section the loop accumulates beyond its initial
accumulator comes from a region other than the GDT region. -/
theorem snapFold_sections_addr (env : SnapEnv E) :
    ∀ (rs : List RegionInfo) (b0 : Option Nat) (acc : List SnapSection)
      (st : Option Nat × List SnapSection),
      rs.foldlM (snapStep env) (b0, acc) = .ok st →
      ∀ s ∈ st.2, s ∈ acc ∨ s.address ≠ 0x80000000 := by
  intro rs
  induction rs with
  | nil =>
    intro b0 acc st h s hs
    rw [List.foldlM_nil, exceptPure] at h
    injection h with h2
    rw [← h2] at hs
    exact Or.inl hs
  | cons r rs ih =>
    intro b0 acc st h s hs
    rw [List.foldlM_cons] at h
    cases hstep : snapStep env (b0, acc) r with
    | error e => rw [hstep, exceptBindErr] at h; exact absurd h (by simp)
    | ok st1 =>
      rw [hstep, exceptBindOk] at h
      have hst1 : st1.2 = acc ∨ ∃ sec, st1.2 = acc ++ [sec] ∧ sec.address ≠ 0x80000000 := by
        unfold snapStep at hstep
        by_cases hgdt : r.address = 0x80000000
        · rw [if_pos (by simp [hgdt])] at hstep
          injection hstep with h3
          rw [← h3]
          exact Or.inl rfl
        · rw [if_neg (by simp [hgdt])] at hstep
          cases hcl : classifyRegion env r with
          | error e => rw [hcl, exceptBindErr] at hstep; exact absurd hstep (by simp)
          | ok c =>
            rw [hcl, exceptBindOk] at hstep
            cases c with
            | none =>
              simp only [filterStep] at hstep
              injection hstep with h3
              rw [← h3]
              exact Or.inl rfl
            | some p =>
              obtain ⟨sec, d⟩ := p
              by_cases hbad : badSection d
              · simp only [filterStep, hbad, if_pos] at hstep
                injection hstep with h3
                rw [← h3]
                exact Or.inl rfl
              · simp only [filterStep, hbad, if_neg, Bool.false_eq_true,
                  not_false_eq_true] at hstep
                injection hstep with h3
                rw [← h3]
                refine Or.inr ⟨sec, rfl, ?_⟩
                rw [classifyRegion_addr env r sec d hcl]
                exact hgdt
      rcases ih st1.1 st1.2 st h s hs with hmem | hne
      · rcases hst1 with hacc | ⟨sec, happ, hsecne⟩
        · rw [hacc] at hmem
          exact Or.inl hmem
        · rw [happ] at hmem
          rcases List.mem_append.mp hmem with h4 | h4
          · exact Or.inl h4
          · rw [List.mem_singleton.mp h4]
            exact Or.inr hsecne
      · exact Or.inr hne

/-- The parts of the document assembled after the region loop. -/
theorem buildOutMap_ok_parts (env : SnapEnv E) (m : OutMap)
    (h : buildOutMap env = .ok m) :
    m.functions = functionRecords env.functionsCalled ∧
    m.comments = env.comments ∧ m.entrypoint = env.entryPoint := by
  unfold buildOutMap at h
  cases hst : (sortRegions env.regions).foldlM (snapStep env) (none, []) with
  | error e => rw [hst, exceptBindErr] at h; exact absurd h (by simp)
  | ok st =>
    rw [hst, exceptBindOk] at h
    injection h with h2
    rw [← h2]
    exact ⟨rfl, rfl, rfl⟩

/-- A run of zero bytes counts as its length. -/
theorem countZeros_replicate (n : Nat) : countZeros (List.replicate n 0) = n := by
  induction n with
  | zero => rfl
  | succ k ih => simp [List.replicate_succ, countZeros, ih, Nat.add_comm]

/-- The zero count never exceeds the length. -/
theorem countZeros_le (d : List Nat) : countZeros d ≤ d.length := by
  induction d with
  | nil => simp [countZeros]
  | cons c rest ih =>
    simp only [countZeros, List.length_cons]
    split <;> omega

/-- A byte list with a nonzero element has strictly fewer zeros than bytes. -/
theorem countZeros_lt_of_nonzero (d : List Nat) (h : ∃ b ∈ d, b ≠ 0) :
    countZeros d < d.length := by
  induction d with
  | nil => simp at h
  | cons c rest ih =>
    obtain ⟨b, hb, hbne⟩ := h
    rcases List.mem_cons.mp hb with rfl | hmem
    · have hle := countZeros_le rest
      simp only [countZeros, List.length_cons, if_neg hbne]
      omega
    · have := ih ⟨b, hmem, hbne⟩
      simp only [countZeros, List.length_cons]
      split <;> omega


/-- The filter `_bad_section` holds whenever the zero fraction exceeds the threshold. -/
theorem badSection_of_zeros (d : List Nat)
    (h : 999999 * d.length < 1000000 * countZeros d) : badSection d = true := by
  unfold badSection
  split_ifs with h1 <;> rfl

/-- The filter `_bad_section` fails exactly when both guards pass. -/
theorem badSection_eq_false (d : List Nat) (h1 : ¬ d.length > 0x100000000)
    (h2 : ¬ 1000000 * countZeros d > 999999 * d.length) : badSection d = false := by
  unfold badSection
  rw [if_neg h1, if_neg h2]

/-- C5: Canonicalization is idempotent: encoding a document to the compact
structured text form (`json.dumps`), decoding it back (`json.loads`), and
re-encoding with sorted keys and indent 4 produces byte-identical output to
canonicalizing the original document directly. -/
theorem c5_canonicalization_idempotent (v : JValue) :
    (decode (dumpsCompact v)).map dumpsCanon = some (dumpsCanon v) := by
  rw [decode_dumpsCompact]
  rfl

/-- C3: the document's base address equals the address of the first region,
in ascending address order, that matched an inclusion rule (the hard-excluded
region at 0x80000000 never matching), and it is absent exactly when no
region matched any rule. -/
theorem c3_base_address_first_match (E : Type) (env : SnapEnv E)
    (f : RegionInfo → List Nat)
    (hf : ∀ r ∈ sortRegions env.regions, r.address ≠ 0x80000000 → matchesRule r = true →
        env.readMem r.address r.size = .ok (f r)) :
    ∃ m, buildOutMap env = .ok m ∧
      List.Sorted addrLe (sortRegions env.regions) ∧
      m.baseAddress = (((sortRegions env.regions).filter baseCandidate).head?).map
        (fun r => r.address) ∧
      (m.baseAddress = none ↔ ∀ r ∈ sortRegions env.regions, ¬ baseCandidate r = true) := by
  refine ⟨_, buildOutMap_char env f hf, List.sorted_insertionSort addrLe env.regions, rfl, ?_⟩
  rw [Option.map_eq_none', List.head?_eq_none_iff, List.filter_eq_nil_iff]

/-- A single qualifying section region used by several witnesses. -/
def envW3 : SnapEnv Unit :=
  { entryPoint := 7
    regions := [⟨0x2000, 1, 3, "section", "x"⟩]
    readMem := fun _ _ => .ok [1]
    heapCurrentOffset := 0
    heapBase := 0
    comments := []
    functionsCalled := [] }

/-- Witness for the base-address characterization at a concrete input. -/
theorem c3_base_address_first_match_witness :
    ∃ m, buildOutMap envW3 = .ok m ∧
      List.Sorted addrLe (sortRegions envW3.regions) ∧
      m.baseAddress = (((sortRegions envW3.regions).filter baseCandidate).head?).map
        (fun r => r.address) ∧
      (m.baseAddress = none ↔ ∀ r ∈ sortRegions envW3.regions, ¬ baseCandidate r = true) :=
  c3_base_address_first_match Unit envW3 (fun _ => [1]) (fun _ _ _ _ => rfl)

/-- The all-zero qualifying region of the C4 counterexample: its only region
matches the third rule, so `base_address` is set, but the noise filter then
rejects the section. -/
def envC4 : SnapEnv Unit :=
  { entryPoint := 0
    regions := [⟨0x2000, 2, 3, "section", "x"⟩]
    readMem := fun _ _ => .ok [0, 0]
    heapCurrentOffset := 0
    heapBase := 0
    comments := []
    functionsCalled := [] }

/-- C4 counterexample: with every matched region rejected by the noise
filter, the document still carries `base_address` while `sections` is empty,
contradicting the claim that `base_address` is present only when a section
qualified. -/
theorem c4_counterexample :
    buildOutMap envC4 = .ok
      { entrypoint := 0
        baseAddress := some 0x2000
        sections := []
        functions := []
        comments := [] }
    ∧ (some (0x2000 : Nat)).isSome = true := by
  exact ⟨rfl, rfl⟩

/-- C4 amended: `base_address` is present in the document exactly when some
region (other than the hard-excluded one) matched a classification rule,
even if the noise/size filter later rejected every matched region's
section. -/
theorem c4_base_address_presence_amended (E : Type) (env : SnapEnv E)
    (f : RegionInfo → List Nat)
    (hf : ∀ r ∈ sortRegions env.regions, r.address ≠ 0x80000000 → matchesRule r = true →
        env.readMem r.address r.size = .ok (f r)) :
    ∃ m, buildOutMap env = .ok m ∧
      (m.baseAddress.isSome = true ↔ ∃ r ∈ sortRegions env.regions, baseCandidate r = true) := by
  refine ⟨_, buildOutMap_char env f hf, ?_⟩
  rw [Option.isSome_map']
  constructor
  · intro h
    cases hl : (sortRegions env.regions).filter baseCandidate with
    | nil => rw [hl] at h; simp at h
    | cons a l =>
      have ha : a ∈ (sortRegions env.regions).filter baseCandidate := by rw [hl]; simp
      rw [List.mem_filter] at ha
      exact ⟨a, ha.1, ha.2⟩
  · rintro ⟨r, hr, hp⟩
    have hmem : r ∈ (sortRegions env.regions).filter baseCandidate :=
      List.mem_filter.mpr ⟨hr, hp⟩
    cases hl : (sortRegions env.regions).filter baseCandidate with
    | nil => rw [hl] at hmem; simp at hmem
    | cons a l => simp only [List.head?_cons, Option.isSome_some]

/-- Witness for the amended base-address presence at the counterexample
input: the filter drops the all-zero region, yet a region matched. -/
theorem c4_base_address_presence_amended_witness :
    ∃ m, buildOutMap envC4 = .ok m ∧
      (m.baseAddress.isSome = true ↔ ∃ r ∈ sortRegions envC4.regions, baseCandidate r = true) :=
  c4_base_address_presence_amended Unit envC4 (fun _ => [0, 0]) (fun _ _ _ _ => rfl)

/-- C8: no section of any produced document has address 0x80000000: the GDT
region is skipped before any classification rule runs. -/
theorem c8_gdt_region_excluded (E : Type) (env : SnapEnv E) (m : OutMap)
    (h : buildOutMap env = .ok m) :
    ∀ s ∈ m.sections, s.address ≠ 0x80000000 := by
  intro s hs
  unfold buildOutMap at h
  cases hst : (sortRegions env.regions).foldlM (snapStep env) (none, []) with
  | error e => rw [hst, exceptBindErr] at h; exact absurd h (by simp)
  | ok st =>
    rw [hst, exceptBindOk] at h
    injection h with h2
    have hsec : s ∈ st.2 := by rw [← h2] at hs; exact hs
    rcases snapFold_sections_addr env (sortRegions env.regions) none [] st hst s hsec with
      hmem | hne
    · simp at hmem
    · exact hne

/-- Witness: in the concrete single-section document, the produced section's
address differs from 0x80000000. -/
theorem c8_gdt_region_excluded_witness :
    (⟨"section_x", 0x2000, 3, b64encode [1]⟩ : SnapSection).address ≠ 0x80000000 :=
  c8_gdt_region_excluded Unit envW3
    { entrypoint := 7
      baseAddress := some 0x2000
      sections := [⟨"section_x", 0x2000, 3, b64encode [1]⟩]
      functions := []
      comments := [] }
    rfl ⟨"section_x", 0x2000, 3, b64encode [1]⟩ (by simp)

/-- C7: the functions sequence holds exactly the traced called addresses
below 0x10000000, in the tracer's native order, each named
`"traced_" ++ hex(addr)` where the hex digits are lowercase, carry the
address's value, have no leading zero padding (hence no fixed width and no
`0x` prefix), and each record's import flag is false. -/
theorem c7_function_records (E : Type) (env : SnapEnv E) (m : OutMap)
    (h : buildOutMap env = .ok m) :
    m.functions = (env.functionsCalled.filter (fun a => decide (a < 0x10000000))).map
      (fun a => ⟨a, "traced_" ++ toHex a, false⟩) ∧
    ∀ fr ∈ m.functions, fr.isImport = false ∧ fr.address < 0x10000000 ∧
      fr.name = "traced_" ++ toHex fr.address ∧
      hexValue (toHex fr.address).data = some fr.address ∧
      (∀ c ∈ (toHex fr.address).data, c ∈ "0123456789abcdef".data) ∧
      (fr.address ≠ 0 → (toHex fr.address).data.head? ≠ some '0') := by
  have hfn : m.functions = functionRecords env.functionsCalled :=
    (buildOutMap_ok_parts env m h).1
  rw [hfn, functionRecords_eq]
  refine ⟨rfl, ?_⟩
  intro fr hfr
  rw [List.mem_map] at hfr
  obtain ⟨a, ha, rfl⟩ := hfr
  rw [List.mem_filter] at ha
  have halt : a < 0x10000000 := by
    have := ha.2
    simpa using this
  exact ⟨rfl, halt, rfl, hexValue_toHex a, toHex_digits a, toHex_no_leading_zero a⟩

/-- Tracer environment for the function-record witness. -/
def envW7 : SnapEnv Unit :=
  { entryPoint := 0
    regions := []
    readMem := fun _ _ => .ok []
    heapCurrentOffset := 0
    heapBase := 0
    comments := []
    functionsCalled := [0x1234, 0x20000000] }

/-- Witness for the function-record characterization at a concrete tracer
state. -/
theorem c7_function_records_witness :
    (functionRecords [0x1234, 0x20000000]
        = (([0x1234, 0x20000000] : List Nat).filter (fun a => decide (a < 0x10000000))).map
            (fun a => ⟨a, "traced_" ++ toHex a, false⟩)) ∧
    ∀ fr ∈ functionRecords [0x1234, 0x20000000],
      fr.isImport = false ∧ fr.address < 0x10000000 ∧
      fr.name = "traced_" ++ toHex fr.address ∧
      hexValue (toHex fr.address).data = some fr.address ∧
      (∀ c ∈ (toHex fr.address).data, c ∈ "0123456789abcdef".data) ∧
      (fr.address ≠ 0 → (toHex fr.address).data.head? ≠ some '0') :=
  c7_function_records Unit envW7
    { entrypoint := 0
      baseAddress := none
      sections := []
      functions := functionRecords [0x1234, 0x20000000]
      comments := [] }
    rfl

/-- Classification of a `main_heap` region: only the heap rule fires, the
stored payload is the slice `data[: current_offset - HEAP_BASE]`, while the
bytes handed to the filter are the full read. -/
theorem classifyPure_main_heap (env : SnapEnv E) (a sz p : Nat) (d : List Nat) :
    classifyPure env ⟨a, sz, p, "heap", "main_heap"⟩ d = some
      (⟨"heap_main_heap", a, p,
        b64encode (pySliceTo ((env.heapCurrentOffset : Int) - (env.heapBase : Int)) d)⟩, d) :=
  rfl

/-- A `main_heap` region matches the classification policy. -/
theorem matchesRule_main_heap (a sz p : Nat) :
    matchesRule ⟨a, sz, p, "heap", "main_heap"⟩ = true := rfl

/-- C2: a region whose data was read is absent from the sections exactly
when the read bytes exceed 0x100000000 in length or are more than
99.9999 percent zeros; otherwise its section is appended.  (The nonempty
hypothesis on the read marks the domain where the source's division in
`percent_zeros` is defined.) -/
theorem c2_noise_size_filter (E : Type) (env : SnapEnv E)
    (f : RegionInfo → List Nat)
    (hf : ∀ r ∈ sortRegions env.regions, r.address ≠ 0x80000000 → matchesRule r = true →
        env.readMem r.address r.size = .ok (f r)) :
    ∃ m, buildOutMap env = .ok m ∧
      m.sections = (sortRegions env.regions).filterMap (regionOutcome env f) ∧
      ∀ r ∈ sortRegions env.regions, r.address ≠ 0x80000000 →
        ∀ sec d, classifyPure env r (f r) = some (sec, d) → d ≠ [] →
          ((regionOutcome env f r = none ↔
              (0x100000000 < d.length ∨ 999999 * d.length < 1000000 * countZeros d)) ∧
            (¬(0x100000000 < d.length ∨ 999999 * d.length < 1000000 * countZeros d) →
              regionOutcome env f r = some sec)) := by
  refine ⟨_, buildOutMap_char env f hf, rfl, ?_⟩
  intro r hr hgdt sec d hcl hdne
  have hro : regionOutcome env f r = filterStep (classifyPure env r (f r)) := by
    unfold regionOutcome
    rw [if_neg (by simp [hgdt])]
  rw [hro, hcl]
  simp only [filterStep]
  constructor
  · constructor
    · intro hnone
      by_cases hbad : badSection d
      · unfold badSection at hbad
        by_cases h1 : d.length > 0x100000000
        · exact Or.inl h1
        · rw [if_neg h1] at hbad
          by_cases h2 : 1000000 * countZeros d > 999999 * d.length
          · exact Or.inr h2
          · rw [if_neg h2] at hbad
            exact absurd hbad (by simp)
      · rw [if_neg (by simp [hbad])] at hnone
        exact absurd hnone (by simp)
    · intro hguard
      have hbad : badSection d = true := by
        unfold badSection
        rcases hguard with h1 | h2
        · rw [if_pos h1]
        · split_ifs <;> rfl
      rw [if_pos (by simp [hbad])]
  · intro hguard
    have hbad : badSection d = false :=
      badSection_eq_false d (fun h1 => hguard (Or.inl h1)) (fun h2 => hguard (Or.inr h2))
    rw [if_neg (by simp [hbad])]

/-- Witness for the noise/size filter characterization at a concrete
all-zero region. -/
theorem c2_noise_size_filter_witness :
    ∃ m, buildOutMap envC4 = .ok m ∧
      m.sections = (sortRegions envC4.regions).filterMap (regionOutcome envC4 (fun _ => [0, 0])) ∧
      ∀ r ∈ sortRegions envC4.regions, r.address ≠ 0x80000000 →
        ∀ sec d, classifyPure envC4 r [0, 0] = some (sec, d) → d ≠ [] →
          ((regionOutcome envC4 (fun _ => [0, 0]) r = none ↔
              (0x100000000 < d.length ∨ 999999 * d.length < 1000000 * countZeros d)) ∧
            (¬(0x100000000 < d.length ∨ 999999 * d.length < 1000000 * countZeros d) →
              regionOutcome envC4 (fun _ => [0, 0]) r = some sec)) :=
  c2_noise_size_filter Unit envC4 (fun _ => [0, 0]) (fun _ _ _ _ => rfl)

/-- The C9 scenario environment: one main-image region named "main .pe". -/
def envC9 (d : List Nat) : SnapEnv Unit :=
  { entryPoint := 0
    regions := [⟨0x1000, 0x10, 0x7, "main", "main .pe"⟩]
    readMem := fun _ _ => .ok d
    heapCurrentOffset := 0
    heapBase := 0
    comments := []
    functionsCalled := [] }

/-- C9: a region `(kind "main", name "main .pe", address 0x1000, size 0x10,
permissions 0x7)` whose 16 read bytes are not all zero yields exactly the
section named ".pe" (the second space-delimited token) with permissions
forced to 1 and base64 data of the read bytes. -/
theorem c9_main_pe_scenario (d : List Nat) (hlen : d.length = 16)
    (hnz : ∃ b ∈ d, b ≠ 0) :
    buildOutMap (envC9 d) = .ok
      { entrypoint := 0
        baseAddress := some 0x1000
        sections := [⟨".pe", 0x1000, 0x1, b64encode d⟩]
        functions := []
        comments := [] } := by
  have hcl : classifyPure (envC9 d) ⟨0x1000, 0x10, 0x7, "main", "main .pe"⟩ d
      = some (⟨".pe", 0x1000, 0x1, b64encode d⟩, d) := rfl
  have hbad : badSection d = false := by
    apply badSection_eq_false
    · rw [hlen]; omega
    · have h1 := countZeros_lt_of_nonzero d hnz
      rw [hlen] at h1 ⊢
      omega
  have hchar := buildOutMap_char (envC9 d) (fun _ => d) (fun _ _ _ _ => rfl)
  rw [hchar]
  have hout : regionOutcome (envC9 d) (fun _ => d) ⟨0x1000, 0x10, 0x7, "main", "main .pe"⟩
      = some ⟨".pe", 0x1000, 0x1, b64encode d⟩ := by
    unfold regionOutcome
    rw [if_neg (by decide), hcl]
    simp only [filterStep, hbad]
    rw [if_neg (by simp)]
  have hsr : sortRegions (envC9 d).regions = [⟨0x1000, 0x10, 0x7, "main", "main .pe"⟩] := rfl
  have hsec : List.filterMap (regionOutcome (envC9 d) (fun _ => d))
      (sortRegions (envC9 d).regions) = [⟨".pe", 0x1000, 0x1, b64encode d⟩] := by
    rw [hsr, List.filterMap_cons, hout]
    rfl
  rw [hsec]
  rfl

/-- Witness for the ".pe" scenario with sixteen 0x41 bytes. -/
theorem c9_main_pe_scenario_witness :
    buildOutMap (envC9 (List.replicate 16 0x41)) = .ok
      { entrypoint := 0
        baseAddress := some 0x1000
        sections := [⟨".pe", 0x1000, 0x1, b64encode (List.replicate 16 0x41)⟩]
        functions := []
        comments := [] } :=
  c9_main_pe_scenario (List.replicate 16 0x41) (by decide) (by decide)

/-- The C1 counterexample environment: a four-byte `main_heap` region whose
heap bookkeeping says eight bytes are in use. -/
def envC1x : SnapEnv Unit :=
  { entryPoint := 0
    regions := [⟨0x1000, 4, 3, "heap", "main_heap"⟩]
    readMem := fun _ _ => .ok [1, 1, 1, 1]
    heapCurrentOffset := 8
    heapBase := 0
    comments := []
    functionsCalled := [] }

/-- C1 counterexample: with `current_offset - heap_base = 8` and a region of
reserved size 4, the emitted pre-base64 bytes are the full four-byte region:
their length is the full reserved size and differs from
`current_offset - heap_base`, contradicting both halves of the claim. -/
theorem c1_counterexample :
    buildOutMap envC1x = .ok
      { entrypoint := 0
        baseAddress := some 0x1000
        sections := [⟨"heap_main_heap", 0x1000, 3,
          b64encode (pySliceTo ((8 : Int) - 0) [1, 1, 1, 1])⟩]
        functions := []
        comments := [] }
    ∧ (pySliceTo ((8 : Int) - 0) [1, 1, 1, 1]).length = 4
    ∧ envC1x.heapCurrentOffset - envC1x.heapBase = 8
    ∧ (4 : Nat) ≠ 8 :=
  ⟨rfl, rfl, rfl, by decide⟩

/-- C1 amended: for a `main_heap` region whose read returns the region's
`size` bytes, the emitted pre-base64 data is `data[: current_offset -
heap_base]`; when `heap_base ≤ current_offset` its length is
`min (current_offset - heap_base) size` — it equals
`current_offset - heap_base`, staying below the full reserved size, exactly
when `current_offset - heap_base < size`. -/
theorem c1_main_heap_truncation_amended (E : Type) (env : SnapEnv E)
    (a sz p : Nat) (d : List Nat) (hd : d.length = sz)
    (hco : env.heapBase ≤ env.heapCurrentOffset) :
    classifyPure env ⟨a, sz, p, "heap", "main_heap"⟩ d = some
      (⟨"heap_main_heap", a, p,
        b64encode (pySliceTo ((env.heapCurrentOffset : Int) - (env.heapBase : Int)) d)⟩, d)
    ∧ (pySliceTo ((env.heapCurrentOffset : Int) - (env.heapBase : Int)) d).length
        = min (env.heapCurrentOffset - env.heapBase) sz := by
  refine ⟨classifyPure_main_heap env a sz p d, ?_⟩
  unfold pySliceTo
  rw [if_pos (by omega)]
  rw [List.length_take, hd]
  congr 1
  omega

/-- Environment for the truncation witness: heap offsets 5 and 0. -/
def envW1 : SnapEnv Unit :=
  { entryPoint := 0
    regions := [⟨0x1000, 8, 3, "heap", "main_heap"⟩]
    readMem := fun _ _ => .ok [1, 2, 3, 4, 5, 6, 7, 8]
    heapCurrentOffset := 5
    heapBase := 0
    comments := []
    functionsCalled := [] }

/-- Witness for the amended truncation law: five bytes in use of an
eight-byte heap region. -/
theorem c1_main_heap_truncation_amended_witness :
    classifyPure envW1 ⟨0x1000, 8, 3, "heap", "main_heap"⟩ [1, 2, 3, 4, 5, 6, 7, 8] = some
      (⟨"heap_main_heap", 0x1000, 3,
        b64encode (pySliceTo ((envW1.heapCurrentOffset : Int) - (envW1.heapBase : Int))
          [1, 2, 3, 4, 5, 6, 7, 8])⟩, [1, 2, 3, 4, 5, 6, 7, 8])
    ∧ (pySliceTo ((envW1.heapCurrentOffset : Int) - (envW1.heapBase : Int))
        [1, 2, 3, 4, 5, 6, 7, 8]).length
        = min (envW1.heapCurrentOffset - envW1.heapBase) 8 :=
  c1_main_heap_truncation_amended Unit envW1 0x1000 8 3 [1, 2, 3, 4, 5, 6, 7, 8]
    (by decide) (by decide)


/-- C10: the noise/size filter judges the full bytes read for a region, not
the truncated payload stored in the section: a `main_heap` region that is
almost entirely zeros over its whole content is dropped from the sections
(and still sets the base address), even though the stored payload would
only have been the truncated slice `data[: current_offset - heap_base]`. -/
theorem c10_filter_on_full_read (E : Type) (env : SnapEnv E) (a sz p : Nat)
    (d : List Nat)
    (hreg : env.regions = [⟨a, sz, p, "heap", "main_heap"⟩])
    (hgdt : a ≠ 0x80000000)
    (hread : env.readMem a sz = .ok d)
    (hbad : 999999 * d.length < 1000000 * countZeros d) :
    ∃ m, buildOutMap env = .ok m ∧ m.sections = [] ∧ m.baseAddress = some a ∧
      classifyPure env ⟨a, sz, p, "heap", "main_heap"⟩ d = some
        (⟨"heap_main_heap", a, p,
          b64encode (pySliceTo ((env.heapCurrentOffset : Int) - (env.heapBase : Int)) d)⟩,
         d) := by
  have hsr : sortRegions env.regions = [⟨a, sz, p, "heap", "main_heap"⟩] := by
    rw [hreg]
    rfl
  have hf : ∀ r2 ∈ sortRegions env.regions, r2.address ≠ 0x80000000 →
      matchesRule r2 = true → env.readMem r2.address r2.size = .ok d := by
    intro r2 hr2
    rw [hsr] at hr2
    rw [List.mem_singleton.mp hr2]
    exact fun _ _ => hread
  have hchar := buildOutMap_char env (fun _ => d) hf
  have hout : regionOutcome env (fun _ => d) ⟨a, sz, p, "heap", "main_heap"⟩ = none := by
    unfold regionOutcome
    rw [if_neg (by simp [hgdt])]
    rw [classifyPure_main_heap env a sz p d]
    simp only [filterStep]
    rw [if_pos (by simp [badSection_of_zeros d hbad])]
  have hbc : baseCandidate ⟨a, sz, p, "heap", "main_heap"⟩ = true := by
    unfold baseCandidate
    rw [matchesRule_main_heap]
    simp [hgdt]
  refine ⟨_, hchar, ?_, ?_, classifyPure_main_heap env a sz p d⟩
  · rw [hsr, List.filterMap_cons, hout]
    rfl
  · rw [hsr, List.filter_cons_of_pos (by simp [hbc])]
    rfl

/-- Environment for the full-read-filter witness: a heap of 1000001 bytes,
one byte in use and nonzero, the rest zeros. -/
def envW10 : SnapEnv Unit :=
  { entryPoint := 0
    regions := [⟨0x5000, 1000001, 3, "heap", "main_heap"⟩]
    readMem := fun _ _ => .ok (1 :: List.replicate 1000000 0)
    heapCurrentOffset := 1
    heapBase := 0
    comments := []
    functionsCalled := [] }

/-- Unfolding lemma for the zero counter. -/
theorem countZeros_cons (c : Nat) (l : List Nat) :
    countZeros (c :: l) = (if c = 0 then 1 else 0) + countZeros l := rfl

/-- Witness: the used single byte is nonzero, yet the full read is more than
99.9999 percent zeros, so the section is dropped while the base address is
set. -/
theorem c10_filter_on_full_read_witness :
    ∃ m, buildOutMap envW10 = .ok m ∧ m.sections = [] ∧ m.baseAddress = some 0x5000 ∧
      classifyPure envW10 ⟨0x5000, 1000001, 3, "heap", "main_heap"⟩
          (1 :: List.replicate 1000000 0) = some
        (⟨"heap_main_heap", 0x5000, 3,
          b64encode (pySliceTo ((envW10.heapCurrentOffset : Int) - (envW10.heapBase : Int))
            (1 :: List.replicate 1000000 0))⟩,
         1 :: List.replicate 1000000 0) :=
  c10_filter_on_full_read Unit envW10 0x5000 1000001 3 (1 :: List.replicate 1000000 0)
    rfl (by decide) rfl
    (by
      have hz : countZeros (1 :: List.replicate 1000000 0) = 1000000 := by
        rw [countZeros_cons, countZeros_replicate, if_neg (by norm_num)]
      have hl : (1 :: List.replicate 1000000 0).length = 1000001 := by
        rw [List.length_cons, List.length_replicate]
      rw [hz, hl]
      norm_num)

/-- C6: if a region read fails during classification, the failure is
propagated: the document build aborts with that error and nothing is
written to the sink (the serialized output is the same error, never a
string). -/
theorem c6_read_failure_aborts (E : Type) (env : SnapEnv E) (e : E)
    (pre post : List RegionInfo) (r : RegionInfo) (f : RegionInfo → List Nat)
    (hsplit : sortRegions env.regions = pre ++ r :: post)
    (hpre : ∀ x ∈ pre, x.address ≠ 0x80000000 → matchesRule x = true →
        env.readMem x.address x.size = .ok (f x))
    (hgdt : r.address ≠ 0x80000000) (hm : matchesRule r = true)
    (he : env.readMem r.address r.size = .error e) :
    buildOutMap env = .error e ∧ snapshotOut env = .error e := by
  have hfold : (sortRegions env.regions).foldlM (snapStep env) (none, []) = .error e := by
    rw [hsplit, List.foldlM_append]
    rw [snapFold_char env f pre hpre none [], exceptBindOk, List.foldlM_cons]
    have hstep : snapStep env
        (none <|> ((pre.filter baseCandidate).head?.map (fun x => x.address)),
         [] ++ pre.filterMap (regionOutcome env f)) r = .error e := by
      unfold snapStep
      rw [if_neg (by simp [hgdt])]
      rw [classifyRegion_error env r e hm he, exceptBindErr]
    rw [hstep, exceptBindErr]
  have hb : buildOutMap env = .error e := by
    unfold buildOutMap
    rw [hfold, exceptBindErr]
  refine ⟨hb, ?_⟩
  unfold snapshotOut
  rw [hb, exceptBindErr]

/-- Environment for the read-failure witness: its only region matches the
valloc rule and every read fails. -/
def envW6 : SnapEnv Unit :=
  { entryPoint := 0
    regions := [⟨0x3000, 4, 3, "valloc", "v"⟩]
    readMem := fun _ _ => .error ()
    heapCurrentOffset := 0
    heapBase := 0
    comments := []
    functionsCalled := [] }

/-- Witness: the failing read aborts the snapshot and nothing is written. -/
theorem c6_read_failure_aborts_witness :
    buildOutMap envW6 = .error () ∧ snapshotOut envW6 = .error () :=
  c6_read_failure_aborts Unit envW6 () [] [] ⟨0x3000, 4, 3, "valloc", "v"⟩ (fun _ => [])
    rfl (fun x hx => absurd hx (by simp)) (by decide) rfl rfl
